import Mathlib

/-!
Verification of the Bernstein polynomial core of the ostap repository
(`source/include/Ostap/Bernstein.h`) against its natural-language
specification.

The polynomial engine is embedded shallowly: a `Bernstein` value carries the
coefficient vector (`pars`, the `PolySum` state) and the interval edges
`xmin`, `xmax`.  Machine floating point is modelled by exact field
arithmetic (`ℚ`, and `ℝ` where transcendental functions appear), so the
spec's "to numerical precision" claims become exact equalities.

Functions whose bodies are visible in the header (the call operator, the
coordinate maps, the templated interpolating constructor, the Gauss-Lobatto
grid builder) are translated from that source.  Functions only declared in
the header, with bodies in the implementation file that is not among the
sources (`evaluate`, `norm`, `divmod`, `sum`, `multiply`), are modelled
from the spec; their doc comments say so explicitly.
-/

namespace Ostap

/-- The `Ostap::Math::Bernstein` data model: the inherited `PolySum`
coefficient vector plus the two interval edges (`m_xmin`, `m_xmax`). -/
structure Bernstein (R : Type) where
  pars : List R
  xmin : R
  xmax : R

variable {R : Type} [LinearOrderedField R]

/-- Degree of the polynomial: number of coefficients minus one
(`PolySum` invariant: a degree-`n` polynomial stores `n+1` coefficients). -/
def Bernstein.degree (p : Bernstein R) : ℕ := p.pars.length - 1

/-- `Bernstein::t`: the affine map from the global interval to the canonical
unit interval, source line 235-236. -/
def Bernstein.tOf (p : Bernstein R) (x : R) : R :=
  (x - p.xmin) / (p.xmax - p.xmin)

/-- `Bernstein::x`: the inverse affine map, source line 233-234. -/
def Bernstein.xOf (p : Bernstein R) (t : R) : R :=
  p.xmin + (p.xmax - p.xmin) * t

/-- One blending pass of de Casteljau's algorithm: adjacent coefficients
`a`, `b` are replaced by `(1-t)*a + t*b`. -/
def casteljauStep (t : R) : List R → List R
  | [] => []
  | [_] => []
  | a :: b :: rest => ((1 - t) * a + t * b) :: casteljauStep t (b :: rest)

/-- De Casteljau blending passes with an explicit pass budget. -/
def casteljauAux : ℕ → List R → R → R
  | 0, _, _ => 0
  | _ + 1, [], _ => 0
  | _ + 1, [a], _ => a
  | fuel + 1, a :: b :: rest, t => casteljauAux fuel (casteljauStep t (a :: b :: rest)) t

/-- Modelled from the spec: the free function `casteljau` is declared at
source line 584-586 with its body in the implementation file, which is not
among the sources; spec §4.1 and §6 describe it as the de Casteljau
summation of a raw Bernstein coefficient sequence: blending passes are
repeated until a single value remains. -/
def casteljau (cs : List R) (t : R) : R := casteljauAux cs.length cs t

/-- Modelled from the spec: the body of `Bernstein::evaluate` is in the
implementation file, which is not among the sources; spec §4.1 states that
it computes the Bernstein sum in the canonical coordinate `t(x)` using de
Casteljau's algorithm. -/
def Bernstein.evaluate (p : Bernstein R) (x : R) : R :=
  casteljau p.pars (p.tOf x)

/-- `Bernstein::operator()`, source lines 207-209:
`x < m_xmin ? 0 : x > m_xmax ? 0 : evaluate ( x )`. -/
def Bernstein.fn (p : Bernstein R) (x : R) : R :=
  if x < p.xmin then 0 else if p.xmax < x then 0 else p.evaluate x

/-- The templated coefficient-sequence constructor, source lines 654-663:
stores the coefficients and the reordered interval edges. -/
def Bernstein.ofCoeffs (cs : List R) (xmin xmax : R) : Bernstein R :=
  { pars := cs, xmin := min xmin xmax, xmax := max xmin xmax }

/-- The zero-padded / truncated value vector `_f` of the interpolating
constructor, source lines 700-702: `_f` has `N` entries, the first
`min(N, NY)` copied from the `y` sequence, the rest zero. -/
def padTake (N : ℕ) (ys : List R) : List R :=
  ys.take N ++ List.replicate (N - ys.length) 0

/-- The canonical abscissas `_t` of the interpolating constructor, source
lines 695-698: every abscissa mapped through `t` with the reordered edges. -/
def interpNodes (xs : List R) (xmin xmax : R) : ℕ → R := fun k =>
  (xs.getD k 0 - min xmin xmax) / (max xmin xmax - min xmin xmax)

/-- One stage of in-place divided differencing, source lines 712-720: for
`k ≥ s` the entry `f[k]` becomes `(f[k] - f[k-1]) / (t[k] - t[k-s])`; the
downward loop reads only pre-stage values. -/
def ddStage (t : ℕ → R) (s : ℕ) (f : ℕ → R) : ℕ → R := fun k =>
  if s ≤ k then (f k - f (k - 1)) / (t k - t (k - s)) else f k

/-- The weight-array update of stage `s`, source lines 722-728: the downward
loop over `j = s .. 1` followed by `w[0] = -w[0] * t[s-1]`. -/
def wStage (t : ℕ → R) (s : ℕ) (w : ℕ → R) : ℕ → R := fun j =>
  if j = 0 then -(w 0) * t (s - 1)
  else if j ≤ s then
    (j : R) * w (j - 1) * (1 - t (s - 1)) / (s : R)
      - ((s - j : ℕ) : R) * t (s - 1) * w j / (s : R)
  else w j

/-- The coefficient-array update of stage `s`, source lines 723-729: `fs` is
the post-stage divided-difference array, `ws` the post-stage weight array
(the source updates `w[j]` immediately before using it in `c[j]`). -/
def cStage (s : ℕ) (fs ws : ℕ → R) (c : ℕ → R) : ℕ → R := fun j =>
  if j = 0 then c 0 + ws 0 * fs s
  else if j ≤ s then
    (j : R) * c (j - 1) / (s : R) + ((s - j : ℕ) : R) * c j / (s : R)
      + ws j * fs s
  else c j

/-- The `(_f, w, c)` state of the Newton-Bernstein loop after the stages
`1 .. s` of the interpolating constructor, source lines 704-730. -/
def interpState (t f0 : ℕ → R) : ℕ → ((ℕ → R) × (ℕ → R) × (ℕ → R))
  | 0 =>
    (f0, (fun j => if j = 0 then 1 else 0), (fun j => if j = 0 then f0 0 else 0))
  | s + 1 =>
    let st := interpState t f0 s
    let f' := ddStage t (s + 1) st.1
    let w' := wStage t (s + 1) st.2.1
    (f', w', cStage (s + 1) f' w' st.2.2)

/-- The final coefficient vector of the interpolating constructor: the
`PolySum` base is sized `xbegin == xend ? 0 : N-1` (source line 688), and
the loop at line 732 copies `c[0..N-1]` into the parameters. -/
def interpPars (t f0 : ℕ → R) (N : ℕ) : List R :=
  if N = 0 then [0]
  else List.ofFn (fun i : Fin N => (interpState t f0 (N - 1)).2.2 i)

/-- The templated interpolating constructor
`Bernstein(XITERATOR, XITERATOR, YITERATOR, YITERATOR, double, double)`,
source lines 680-733: Newton-Bernstein (Ainsworth-Sanches) construction of
the interpolant through `(xs i, ys i)` on the reordered interval. -/
def Bernstein.interpolate (xs ys : List R) (xmin xmax : R) : Bernstein R :=
  { pars :=
      interpPars (interpNodes xs xmin xmax)
        (fun k => (padTake xs.length ys).getD k 0) xs.length
    xmin := min xmin xmax
    xmax := max xmin xmax }

namespace Interpolation

/-- `Ostap::Math::Interpolation::bernstein` (iterator form), source lines
885-898: delegates to the interpolating constructor. -/
def bernstein (xs ys : List R) (xmin xmax : R) : Bernstein R :=
  Bernstein.interpolate xs ys xmin xmax

/-- `Ostap::Math::Interpolation::bernstein` (function form), source lines
921-936: samples `func` on the abscissas and delegates. -/
def bernsteinF (func : R → R) (xs : List R) (xmin xmax : R) : Bernstein R :=
  Bernstein.interpolate xs (xs.map func) xmin xmax

/-- The Gauss-Lobatto-type grid built by `Interpolation::lobatto`, source
lines 977-990: an `(N+1)`-entry vector, value-initialised to zero, whose
front is set to `min(xmin,xmax)`, whose back is set to `max(xmin,xmax)`,
and whose entries `1 .. N-2` are set by the loop
`for ( i = 1 ; i + 1 < N ; ++i ) x[i] = xhs - cos(pi/(N-1) * i) * xhd`.
The entry at index `N-1` is touched by none of these assignments and keeps
its initial value `0`. -/
noncomputable def lobattoGrid (N : ℕ) (xmin xmax : ℝ) : List ℝ :=
  List.ofFn (fun i : Fin (N + 1) =>
    if (i : ℕ) = 0 then min xmin xmax
    else if (i : ℕ) = N then max xmin xmax
    else if (i : ℕ) + 1 < N then
      (1 / 2) * (min xmin xmax + max xmin xmax)
        - Real.cos (Real.pi / ((N : ℝ) - 1) * (i : ℕ))
          * ((1 / 2) * (max xmin xmax - min xmin xmax))
    else 0)

/-- `Ostap::Math::Interpolation::lobatto`, source lines 958-995: the `N = 0`
case interpolates the single midpoint sample, otherwise the function is
interpolated on the cosine-spaced grid. -/
noncomputable def lobatto (func : ℝ → ℝ) (N : ℕ) (xmin xmax : ℝ) :
    Bernstein ℝ :=
  if N = 0 then
    Bernstein.interpolate [(1 / 2) * (xmin + xmax)]
      [func ((1 / 2) * (xmin + xmax))] xmin xmax
  else bernsteinF func (lobattoGrid N xmin xmax) xmin xmax

end Interpolation

/-- The Bernstein sum `∑ c j * C(n,j) * t^j * (1-t)^(n-j)` over an abstract
coefficient array, used to state what the de Casteljau evaluation and the
Newton-Bernstein construction compute. -/
def bsum (n : ℕ) (c : ℕ → R) (t : R) : R :=
  ∑ j ∈ Finset.range (n + 1), c j * (n.choose j : R) * t ^ j * (1 - t) ^ (n - j)

/-- The value of a Bernstein coefficient list at canonical coordinate `t`. -/
def bernEval (cs : List R) (t : R) : R :=
  bsum (cs.length - 1) (fun j => cs.getD j 0) t

/-- Value of a dense monomial coefficient list (index `i` holds the
coefficient of `t^i`), in Horner form. -/
def mEval (ms : List R) (x : R) : R :=
  ms.foldr (fun a acc => a + x * acc) 0

/-- Coefficient-wise sum of two monomial coefficient lists. -/
def addL : List R → List R → List R
  | [], l => l
  | l, [] => l
  | a :: l, b :: m => (a + b) :: addL l m

/-- Scaling of a monomial coefficient list. -/
def scaleL (c : R) (l : List R) : List R := l.map (fun a => c * a)

/-- Multiplication by `t^k`: prepend `k` zeros. -/
def shiftL (k : ℕ) (l : List R) : List R := List.replicate k 0 ++ l

/-- Product of two monomial coefficient lists. -/
def mulL : List R → List R → List R
  | [], _ => []
  | a :: l, m => addL (scaleL a m) (0 :: mulL l m)

/-- Power of a monomial coefficient list. -/
def powL (l : List R) : ℕ → List R
  | 0 => [1]
  | k + 1 => mulL l (powL l k)

/-- Monomial coefficient list of the basic Bernstein polynomial
`B(k,n)(t) = C(n,k) t^k (1-t)^(n-k)`. -/
def bernBasisM (n k : ℕ) : List R :=
  scaleL ((n.choose k : ℕ) : R) (mulL (shiftL k [1]) (powL [1, -1] (n - k)))

/-- Monomial coefficient list of a Bernstein coefficient list (canonical
coordinate): `∑ k, c k * B(k,n)`. -/
def bernToMono (cs : List R) : List R :=
  (List.range cs.length).foldr
    (fun k acc => addL (scaleL (cs.getD k 0) (bernBasisM (cs.length - 1) k)) acc) []

/-- Bernstein coefficient list of degree `n` representing a monomial
coefficient list `ms` (valid when `ms` has at most `n+1` entries):
`c k = ∑ j ≤ k, ms j * C(k,j) / C(n,j)`. -/
def monoToBern (ms : List R) (n : ℕ) : List R :=
  List.ofFn (fun k : Fin (n + 1) =>
    ∑ j ∈ Finset.range ((k : ℕ) + 1),
      ms.getD j 0 * ((k : ℕ).choose j : R) / (n.choose j : R))

/-- Trailing zeros of a monomial coefficient list removed. -/
def trimL (l : List R) : List R :=
  (l.reverse.dropWhile (fun a => a = 0)).reverse

/-- Coefficient-wise difference of two equal-length monomial lists. -/
def subL (a b : List R) : List R := List.zipWith (fun x y => x - y) a b

/-- One pass of monomial long division with an explicit step budget: each
step cancels the leading coefficient of `a` against the (trimmed, hence
nonzero) leading coefficient of `b'` and drops the vanished top entry. -/
def divAux : ℕ → List R → List R → List R × List R
  | 0, a, _ => ([], a)
  | fuel + 1, a, b' =>
    if b' = [] ∨ a.length < b'.length then ([], a)
    else
      let c := (a.getLast?.getD 0) / (b'.getLast?.getD 0)
      let k := a.length - b'.length
      let a' := (subL a (shiftL k (scaleL c b'))).dropLast
      let qr := divAux fuel a' b'
      (addL (shiftL k [c]) qr.1, qr.2)

/-- Long division of dense monomial coefficient lists: `divL a b` returns
`(q, r)` with `a = b*q + r`; a zero (or longer-than-`a`) divisor yields
`([], a)`.  Auxiliary for the spec-modelled `divmod`. -/
def divL (a b : List R) : List R × List R :=
  divAux a.length a (trimL b)

/-- Predicate: all Bernstein coefficients vanish (the zero polynomial in
the sense of the division contract, spec §7(b)). -/
def Bernstein.isZero (p : Bernstein R) : Prop := ∀ c ∈ p.pars, c = 0

/-- Modelled from the spec: the body of `Bernstein::multiply` is in the
implementation file, which is not among the sources; spec §6/§9 state that
the product of Bernstein polynomials is the polynomial product, of degree
equal to the sum of the degrees.  Computed through the monomial basis. -/
def Bernstein.multiply (p g : Bernstein R) : Bernstein R :=
  { pars := monoToBern (mulL (bernToMono p.pars) (bernToMono g.pars))
      (p.degree + g.degree)
    xmin := p.xmin
    xmax := p.xmax }

/-- Modelled from the spec: the body of `Bernstein::sum` is in the
implementation file, which is not among the sources; spec §9 states that
the sum preserves the maximal degree of the operands.  Computed through the
monomial basis. -/
def Bernstein.sum (p g : Bernstein R) : Bernstein R :=
  { pars := monoToBern (addL (bernToMono p.pars) (bernToMono g.pars))
      (max p.degree g.degree)
    xmin := p.xmin
    xmax := p.xmax }

/-- Modelled from the spec: the body of `Bernstein::divmod` is in the
implementation file, which is not among the sources; spec §4.6 and §7(b)
state that it performs exact polynomial division `f = q*g + r`, and that a
zero divisor or `deg g > deg f` yields the degenerate result
`q = 0, r = f` without a fault.  Computed through the monomial basis. -/
def Bernstein.divmod (p g : Bernstein R) : Bernstein R × Bernstein R :=
  if (∀ c ∈ g.pars, c = 0) ∨ p.degree < g.degree then
    ({ pars := [0], xmin := p.xmin, xmax := p.xmax }, p)
  else
    let dm := divL (bernToMono p.pars) (bernToMono g.pars)
    ({ pars := monoToBern dm.1 p.degree, xmin := p.xmin, xmax := p.xmax },
     { pars := monoToBern dm.2 p.degree, xmin := p.xmin, xmax := p.xmax })

/-- `Bernstein::quotient`: the first component of `divmod` (source lines
346-353). -/
def Bernstein.quotient (p g : Bernstein R) : Bernstein R := (p.divmod g).1

/-- `Bernstein::reminder`: the second component of `divmod` (source lines
346-358). -/
def Bernstein.reminder (p g : Bernstein R) : Bernstein R := (p.divmod g).2

/-- Modelled from the spec: the body of `Bernstein::norm` is in the
implementation file, which is not among the sources; spec §4.4 defines the
q-generalised coefficient norm: `q_inv = 0` gives `max |c_k|`, otherwise
`(∑ |c_k|^(1/q_inv))^(q_inv)`. -/
noncomputable def Bernstein.norm (p : Bernstein ℝ) (q_inv : ℝ) : ℝ :=
  if q_inv = 0 then (p.pars.map (fun c => |c|)).foldr max 0
  else ((p.pars.map (fun c => |c| ^ q_inv⁻¹)).sum) ^ q_inv

/-- Single Bernstein basis value `C(m,j) t^j (1-t)^(m-j)` (proof device for
the stage invariants of the interpolating constructor). -/
def bernB (m j : ℕ) (t : R) : R :=
  ((m.choose j : ℕ) : R) * t ^ j * (1 - t) ^ (m - j)

/-- Divided differences of `f` over the nodes `t`: `ddiv s k` is the order-`s`
divided difference on the node window `t (k-s) .. t k` (proof device; this is
the quantity the in-place loop of the interpolating constructor computes). -/
def ddiv (t f : ℕ → R) : ℕ → ℕ → R
  | 0, k => f k
  | s + 1, k => (ddiv t f s k - ddiv t f s (k - 1)) / (t k - t (k - (s + 1)))

/-- Newton-form interpolation polynomial on the node window
`t a .. t (a+s)` (proof device). -/
noncomputable def NWp (t f : ℕ → R) (a s : ℕ) : Polynomial R :=
  ∑ σ ∈ Finset.range (s + 1),
    Polynomial.C (ddiv t f σ (a + σ))
      * ∏ i ∈ Finset.range σ, (Polynomial.X - Polynomial.C (t (a + i)))

/-- Lagrange interpolation polynomial on the node window `t a .. t (a+s)`
(proof device). -/
noncomputable def Lg (t f : ℕ → R) (a s : ℕ) : Polynomial R :=
  Lagrange.interpolate (Finset.range (s + 1)) (fun r => t (a + r))
    (fun r => f (a + r))

/-! ## Theorems -/

theorem length_casteljauStep (t : R) (l : List R) :
    (casteljauStep t l).length = l.length - 1 := by
  induction l with
  | nil => rfl
  | cons a l ih =>
    cases l with
    | nil => rfl
    | cons b rest => simp [casteljauStep] at ih ⊢; omega

theorem padTake_take (N : ℕ) (ys : List R) :
    padTake N (ys.take N) = padTake N ys := by
  unfold padTake
  rw [List.take_take, min_self, List.length_take]
  have : N - min N ys.length = N - ys.length := by omega
  rw [this]

theorem padTake_pad (N : ℕ) (ys : List R) :
    padTake N (ys ++ List.replicate (N - ys.length) 0) = padTake N ys := by
  unfold padTake
  rcases le_or_lt N ys.length with h | h
  · simp [Nat.sub_eq_zero_of_le h]
  · have hy : ys.length ≤ N := le_of_lt h
    have hlen : (ys ++ List.replicate (N - ys.length) (0 : R)).length = N := by
      simp
      omega
    rw [List.take_of_length_le (le_of_eq hlen), hlen, Nat.sub_self,
      List.take_of_length_le hy]
    simp

/-- Claim C3: for every Bernstein polynomial and every point strictly
outside `[xmin, xmax]`, the call operator returns exactly 0, with no
extrapolation and no error. -/
theorem outside_domain_returns_zero (p : Bernstein ℚ) (x : ℚ)
    (h : x < p.xmin ∨ p.xmax < x) : p.fn x = 0 := by
  unfold Bernstein.fn
  rcases h with h | h
  · rw [if_pos h]
  · rcases lt_or_le x p.xmin with h' | h'
    · rw [if_pos h']
    · rw [if_neg (not_lt.mpr h'), if_pos h]

theorem outside_domain_returns_zero_witness :
    ((4 : ℚ) < (Bernstein.mk ([5, 7] : List ℚ) 2 3).xmin ∨
      (Bernstein.mk ([5, 7] : List ℚ) 2 3).xmax < 4) ∧
    (Bernstein.mk ([5, 7] : List ℚ) 2 3).fn 4 = 0 :=
  ⟨Or.inr (by norm_num),
    outside_domain_returns_zero (Bernstein.mk ([5, 7] : List ℚ) 2 3) 4
      (Or.inr (by norm_num))⟩

/-- Claim C8: the bound-taking constructors (the coefficient-sequence
constructor and the interpolating constructor) store
`xmin = min` and `xmax = max` of the two bound arguments: swapped bounds
are silently reordered. -/
theorem constructor_bounds_ordered (cs xs ys : List ℚ) (a b : ℚ) :
    (Bernstein.ofCoeffs cs a b).xmin = min a b ∧
    (Bernstein.ofCoeffs cs a b).xmax = max a b ∧
    (Bernstein.interpolate xs ys a b).xmin = min a b ∧
    (Bernstein.interpolate xs ys a b).xmax = max a b :=
  ⟨rfl, rfl, rfl, rfl⟩

/-- Claim C9: at the domain endpoints the call operator evaluates the
polynomial rather than returning 0: the zero-outside contract uses strict
comparisons, so the boundary belongs to the evaluated domain. -/
theorem boundary_points_evaluated (p : Bernstein ℚ) (h : p.xmin ≤ p.xmax) :
    p.fn p.xmin = p.evaluate p.xmin ∧ p.fn p.xmax = p.evaluate p.xmax := by
  unfold Bernstein.fn
  rw [if_neg (lt_irrefl p.xmin), if_neg (not_lt.mpr h),
    if_neg (not_lt.mpr h), if_neg (lt_irrefl p.xmax)]
  exact ⟨rfl, rfl⟩

theorem boundary_points_evaluated_witness :
    (Bernstein.mk ([5, 7] : List ℚ) 2 3).xmin
        ≤ (Bernstein.mk ([5, 7] : List ℚ) 2 3).xmax ∧
    (Bernstein.mk ([5, 7] : List ℚ) 2 3).fn (Bernstein.mk ([5, 7] : List ℚ) 2 3).xmin
        = (Bernstein.mk ([5, 7] : List ℚ) 2 3).evaluate
            (Bernstein.mk ([5, 7] : List ℚ) 2 3).xmin ∧
    (Bernstein.mk ([5, 7] : List ℚ) 2 3).fn (Bernstein.mk ([5, 7] : List ℚ) 2 3).xmax
        = (Bernstein.mk ([5, 7] : List ℚ) 2 3).evaluate
            (Bernstein.mk ([5, 7] : List ℚ) 2 3).xmax := by
  refine ⟨by norm_num, ?_⟩
  exact boundary_points_evaluated (Bernstein.mk ([5, 7] : List ℚ) 2 3) (by norm_num)

/-- Claim C5: when the divisor is the zero polynomial, or its degree
exceeds the dividend's, `divmod` (hence `quotient`/`reminder`) returns the
defined degenerate result: a zero quotient and the dividend itself as
remainder, with no fault. -/
theorem divmod_degenerate (p g : Bernstein ℚ)
    (h : (∀ c ∈ g.pars, c = 0) ∨ p.degree < g.degree) :
    (∀ c ∈ (p.quotient g).pars, c = 0) ∧ p.reminder g = p := by
  unfold Bernstein.quotient Bernstein.reminder Bernstein.divmod
  rw [if_pos h]
  exact ⟨by intro c hc; simpa using hc, rfl⟩

theorem divmod_degenerate_witness :
    ((∀ c ∈ (Bernstein.mk ([0, 0, 0] : List ℚ) 0 1).pars, c = 0) ∨
      (Bernstein.mk ([1, 2] : List ℚ) 0 1).degree
        < (Bernstein.mk ([0, 0, 0] : List ℚ) 0 1).degree) ∧
    (∀ c ∈ ((Bernstein.mk ([1, 2] : List ℚ) 0 1).quotient
        (Bernstein.mk ([0, 0, 0] : List ℚ) 0 1)).pars, c = 0) ∧
    (Bernstein.mk ([1, 2] : List ℚ) 0 1).reminder
        (Bernstein.mk ([0, 0, 0] : List ℚ) 0 1)
      = Bernstein.mk ([1, 2] : List ℚ) 0 1 := by
  refine ⟨Or.inl (by decide), ?_⟩
  exact divmod_degenerate (Bernstein.mk ([1, 2] : List ℚ) 0 1)
    (Bernstein.mk ([0, 0, 0] : List ℚ) 0 1) (Or.inl (by decide))

/-- Claim C6: with `N` abscissas the interpolant has degree `N - 1`
(truncated subtraction: the degenerate empty input gives the default
single-coefficient polynomial of degree 0); a `y`-sequence longer than the
abscissa sequence gives the same result as its truncation, and a shorter
one the same result as its zero-padding. -/
theorem interpolation_degree_y_contract (xs ys : List ℚ) (a b : ℚ) :
    (Bernstein.interpolate xs ys a b).degree = xs.length - 1 ∧
    Bernstein.interpolate xs ys a b
      = Bernstein.interpolate xs (ys.take xs.length) a b ∧
    Bernstein.interpolate xs ys a b
      = Bernstein.interpolate xs (ys ++ List.replicate (xs.length - ys.length) 0) a b := by
  refine ⟨?_, ?_, ?_⟩
  · unfold Bernstein.interpolate Bernstein.degree interpPars
    by_cases hN : xs.length = 0
    · rw [if_pos hN, hN]
      rfl
    · rw [if_neg hN]
      simp
  · unfold Bernstein.interpolate
    rw [padTake_take]
  · unfold Bernstein.interpolate
    rw [padTake_pad]

theorem interpNodes_inj (xs : List R) (a b : R) (hx : xs.Nodup) (hab : a ≠ b)
    {i j : ℕ} (hi : i < xs.length) (hj : j < xs.length) (hij : i ≠ j) :
    interpNodes xs a b i ≠ interpNodes xs a b j := by
  have hd : max a b - min a b ≠ 0 := sub_ne_zero.mpr (ne_of_gt (min_lt_max.mpr hab))
  have hgd : xs.getD i 0 ≠ xs.getD j 0 := by
    rw [xs.getD_eq_getElem 0 hi, xs.getD_eq_getElem 0 hj]
    intro h
    exact hij ((List.Nodup.getElem_inj_iff hx).mp h)
  intro h
  apply hgd
  unfold interpNodes at h
  rw [div_eq_div_iff hd hd] at h
  have h2 := mul_right_cancel₀ hd h
  exact sub_left_injective h2

/-- Claim C10: in the interpolating constructor, every divided-difference
update divides by `t_k - t_{k-s}` with no guard and the abscissa map
divides by `xmax - xmin`; under the preconditions (pairwise distinct
abscissas, distinct bounds) every such divisor is nonzero, so the
division-by-zero branch is unreachable. -/
theorem interpolation_no_division_by_zero (xs : List ℚ) (a b : ℚ)
    (hx : xs.Nodup) (hab : a ≠ b) :
    max a b - min a b ≠ 0 ∧
    ∀ s k : ℕ, 1 ≤ s → s ≤ k → k < xs.length →
      interpNodes xs a b k - interpNodes xs a b (k - s) ≠ 0 := by
  refine ⟨sub_ne_zero.mpr (ne_of_gt (min_lt_max.mpr hab)), ?_⟩
  intro s k hs hsk hk
  exact sub_ne_zero.mpr
    (interpNodes_inj xs a b hx hab hk (by omega) (by omega))

theorem interpolation_no_division_by_zero_witness :
    ([0, 1] : List ℚ).Nodup ∧ (0 : ℚ) ≠ 1 ∧
    (max (0 : ℚ) 1 - min (0 : ℚ) 1 ≠ 0 ∧
      ∀ s k : ℕ, 1 ≤ s → s ≤ k → k < ([0, 1] : List ℚ).length →
        interpNodes ([0, 1] : List ℚ) 0 1 k
          - interpNodes ([0, 1] : List ℚ) 0 1 (k - s) ≠ 0) := by
  refine ⟨by decide, by norm_num, ?_⟩
  exact interpolation_no_division_by_zero [0, 1] 0 1 (by decide) (by norm_num)

theorem lobattoGrid_getD (N : ℕ) (xmin xmax : ℝ) {k : ℕ} (hk : k ≤ N) :
    (Interpolation.lobattoGrid N xmin xmax).getD k 0 =
      if k = 0 then min xmin xmax
      else if k = N then max xmin xmax
      else if k + 1 < N then
        (1 / 2) * (min xmin xmax + max xmin xmax)
          - Real.cos (Real.pi / ((N : ℝ) - 1) * k)
            * ((1 / 2) * (max xmin xmax - min xmin xmax))
      else 0 := by
  unfold Interpolation.lobattoGrid
  rw [List.getD_eq_getElem _ 0 (by simpa using Nat.lt_succ_of_le hk),
    List.getElem_ofFn]

/-- Claim C2 (corrected): `lobatto` with `N = 0` interpolates the single
midpoint sample; with `N ≥ 1` it interpolates `func` on the `(N+1)`-point
grid whose first point is `min(xmin,xmax)`, whose last point is
`max(xmin,xmax)`, and whose points at indices `1 ≤ k ≤ N-2` equal
`xhs - cos(pi*k/(N-1))*xhd` -- but the grid point at index `N-1` (distinct
from the endpoints whenever `N ≥ 2`) is never assigned by the source loop
`for ( i = 1 ; i + 1 < N ; ++i )` and keeps its default value 0, contrary
to the claimed cosine formula. -/
theorem lobatto_grid_structure (func : ℝ → ℝ) (N : ℕ) (xmin xmax : ℝ) :
    (Interpolation.lobatto func 0 xmin xmax
        = Bernstein.interpolate [(1 / 2) * (xmin + xmax)]
            [func ((1 / 2) * (xmin + xmax))] xmin xmax) ∧
    (1 ≤ N →
      (Interpolation.lobattoGrid N xmin xmax).length = N + 1 ∧
      (Interpolation.lobattoGrid N xmin xmax).getD 0 0 = min xmin xmax ∧
      (Interpolation.lobattoGrid N xmin xmax).getD N 0 = max xmin xmax ∧
      (∀ k, 1 ≤ k → k + 1 < N →
        (Interpolation.lobattoGrid N xmin xmax).getD k 0
          = (1 / 2) * (min xmin xmax + max xmin xmax)
            - Real.cos (Real.pi / ((N : ℝ) - 1) * k)
              * ((1 / 2) * (max xmin xmax - min xmin xmax))) ∧
      (2 ≤ N → (Interpolation.lobattoGrid N xmin xmax).getD (N - 1) 0 = 0) ∧
      Interpolation.lobatto func N xmin xmax
        = Interpolation.bernsteinF func
            (Interpolation.lobattoGrid N xmin xmax) xmin xmax) := by
  constructor
  · unfold Interpolation.lobatto
    rw [if_pos rfl]
  · intro hN
    refine ⟨by simp [Interpolation.lobattoGrid], ?_, ?_, ?_, ?_, ?_⟩
    · rw [lobattoGrid_getD N xmin xmax (Nat.zero_le N), if_pos rfl]
    · rw [lobattoGrid_getD N xmin xmax (le_refl N)]
      rcases Nat.eq_zero_or_pos N with h0 | h0
      · omega
      · rw [if_neg (by omega), if_pos rfl]
    · intro k hk1 hk2
      rw [lobattoGrid_getD N xmin xmax (by omega),
        if_neg (by omega), if_neg (by omega), if_pos hk2]
    · intro h2
      rw [lobattoGrid_getD N xmin xmax (by omega),
        if_neg (by omega), if_neg (by omega), if_neg (by omega)]
    · unfold Interpolation.lobatto
      rw [if_neg (by omega)]

theorem lobatto_grid_structure_witness :
    (1 ≤ 3) ∧ (2 ≤ 3) ∧ (1 ≤ 1 ∧ 1 + 1 < 3) ∧
    ((Interpolation.lobatto (fun _ => (0 : ℝ)) 0 0 1
        = Bernstein.interpolate [(1 / 2) * ((0 : ℝ) + 1)]
            [(fun _ => (0 : ℝ)) ((1 / 2) * ((0 : ℝ) + 1))] 0 1) ∧
      (1 ≤ 3 →
        (Interpolation.lobattoGrid 3 (0 : ℝ) 1).length = 3 + 1 ∧
        (Interpolation.lobattoGrid 3 (0 : ℝ) 1).getD 0 0 = min (0 : ℝ) 1 ∧
        (Interpolation.lobattoGrid 3 (0 : ℝ) 1).getD 3 0 = max (0 : ℝ) 1 ∧
        (∀ k, 1 ≤ k → k + 1 < 3 →
          (Interpolation.lobattoGrid 3 (0 : ℝ) 1).getD k 0
            = (1 / 2) * (min (0 : ℝ) 1 + max (0 : ℝ) 1)
              - Real.cos (Real.pi / ((3 : ℝ) - 1) * k)
                * ((1 / 2) * (max (0 : ℝ) 1 - min (0 : ℝ) 1))) ∧
        (2 ≤ 3 → (Interpolation.lobattoGrid 3 (0 : ℝ) 1).getD (3 - 1) 0 = 0) ∧
        Interpolation.lobatto (fun _ => (0 : ℝ)) 3 0 1
          = Interpolation.bernsteinF (fun _ => (0 : ℝ))
              (Interpolation.lobattoGrid 3 (0 : ℝ) 1) 0 1)) := by
  refine ⟨by decide, by decide, ⟨by decide, by decide⟩, ?_⟩
  exact lobatto_grid_structure (fun _ => (0 : ℝ)) 3 0 1

/-- Claim C2, counterexample to the claim as stated: for `N = 2` on the
interval `[0,4]` the sole interior grid point (index 1) is the default
value 0, while the claimed formula `xhs - cos(pi*1/(N-1))*xhd` evaluates
to 4. -/
theorem lobatto_grid_deviates :
    (Interpolation.lobattoGrid 2 0 4).getD 1 0 = 0 ∧
    (1 / 2 : ℝ) * (min (0 : ℝ) 4 + max (0 : ℝ) 4)
      - Real.cos (Real.pi / ((2 : ℝ) - 1) * 1)
        * ((1 / 2) * (max (0 : ℝ) 4 - min (0 : ℝ) 4)) = 4 := by
  constructor
  · rw [lobattoGrid_getD 2 0 4 (by omega), if_neg (by omega),
      if_neg (by omega), if_neg (by omega)]
  · have h1 : ((2 : ℝ) - 1) = 1 := by norm_num
    rw [h1, div_one, mul_one, Real.cos_pi]
    norm_num

theorem sum_sq_nonneg (l : List ℝ) : 0 ≤ (l.map (fun c => c ^ 2)).sum := by
  apply List.sum_nonneg
  intro x hx
  rcases List.mem_map.mp hx with ⟨c, _, rfl⟩
  positivity

theorem sum_abs_nonneg (l : List ℝ) : 0 ≤ (l.map (fun c => |c|)).sum := by
  apply List.sum_nonneg
  intro x hx
  rcases List.mem_map.mp hx with ⟨c, _, rfl⟩
  positivity

theorem max_abs_le_sqrt_sum_sq (l : List ℝ) :
    (l.map (fun c => |c|)).foldr max 0 ≤ Real.sqrt ((l.map (fun c => c ^ 2)).sum) := by
  induction l with
  | nil => simp
  | cons a l ih =>
    simp only [List.map_cons, List.foldr_cons, List.sum_cons]
    apply max_le
    · rw [← Real.sqrt_sq_eq_abs]
      exact Real.sqrt_le_sqrt (by have := sum_sq_nonneg l; linarith)
    · exact le_trans ih (Real.sqrt_le_sqrt (by have := sq_nonneg a; linarith))

theorem sqrt_sum_sq_le_sum_abs (l : List ℝ) :
    Real.sqrt ((l.map (fun c => c ^ 2)).sum) ≤ (l.map (fun c => |c|)).sum := by
  have key : (l.map (fun c => c ^ 2)).sum ≤ ((l.map (fun c => |c|)).sum) ^ 2 := by
    induction l with
    | nil => simp
    | cons a l ih =>
      simp only [List.map_cons, List.sum_cons]
      have h1 := sum_abs_nonneg l
      have h2 : a ^ 2 = |a| ^ 2 := (sq_abs a).symm
      nlinarith [abs_nonneg a]
  calc Real.sqrt ((l.map (fun c => c ^ 2)).sum)
      ≤ Real.sqrt (((l.map (fun c => |c|)).sum) ^ 2) := Real.sqrt_le_sqrt key
    _ = (l.map (fun c => |c|)).sum := by
        rw [Real.sqrt_sq (sum_abs_nonneg l)]

theorem norm_one_half (p : Bernstein ℝ) :
    p.norm (1 / 2) = Real.sqrt ((p.pars.map (fun c => c ^ 2)).sum) := by
  unfold Bernstein.norm
  rw [if_neg (by norm_num : (1 / 2 : ℝ) ≠ 0)]
  have hmap : p.pars.map (fun c => |c| ^ ((1 / 2 : ℝ))⁻¹)
      = p.pars.map (fun c => c ^ 2) := by
    apply List.map_congr_left
    intro c _
    have h2 : ((1 / 2 : ℝ))⁻¹ = ((2 : ℕ) : ℝ) := by norm_num
    rw [h2, Real.rpow_natCast, sq_abs]
  rw [hmap, ← Real.sqrt_eq_rpow]

theorem norm_one (p : Bernstein ℝ) :
    p.norm 1 = (p.pars.map (fun c => |c|)).sum := by
  unfold Bernstein.norm
  rw [if_neg (one_ne_zero : (1 : ℝ) ≠ 0), inv_one, Real.rpow_one]
  congr 1
  apply List.map_congr_left
  intro c _
  exact Real.rpow_one |c|

/-- Claim C7: for every non-zero polynomial the coefficient q-norms are
ordered: the max-norm is at most the Euclidean norm, which is at most the
sum-of-absolute-values norm. -/
theorem norm_monotone (p : Bernstein ℝ) (h : ¬ p.isZero) :
    p.norm 0 ≤ p.norm (1 / 2) ∧ p.norm (1 / 2) ≤ p.norm 1 := by
  constructor
  · have h0 : p.norm 0 = (p.pars.map (fun c => |c|)).foldr max 0 := by
      unfold Bernstein.norm
      rw [if_pos rfl]
    rw [h0, norm_one_half]
    exact max_abs_le_sqrt_sum_sq p.pars
  · rw [norm_one_half, norm_one]
    exact sqrt_sum_sq_le_sum_abs p.pars

theorem norm_monotone_witness :
    ¬ (Bernstein.mk ([3, 4] : List ℝ) 0 1).isZero ∧
    (Bernstein.mk ([3, 4] : List ℝ) 0 1).norm 0
        ≤ (Bernstein.mk ([3, 4] : List ℝ) 0 1).norm (1 / 2) ∧
    (Bernstein.mk ([3, 4] : List ℝ) 0 1).norm (1 / 2)
        ≤ (Bernstein.mk ([3, 4] : List ℝ) 0 1).norm 1 := by
  have h : ¬ (Bernstein.mk ([3, 4] : List ℝ) 0 1).isZero := by
    intro hz
    have := hz 3 (by simp)
    norm_num at this
  exact ⟨h, norm_monotone (Bernstein.mk ([3, 4] : List ℝ) 0 1) h⟩

/-! ### Monomial coefficient-list lemmas (auxiliary for the spec-modelled
polynomial arithmetic) -/

theorem mEval_nil (x : R) : mEval ([] : List R) x = 0 := rfl

theorem mEval_cons (a : R) (l : List R) (x : R) :
    mEval (a :: l) x = a + x * mEval l x := rfl

theorem mEval_addL (l m : List R) (x : R) :
    mEval (addL l m) x = mEval l x + mEval m x := by
  induction l generalizing m with
  | nil => simp [addL, mEval_nil]
  | cons a l ih =>
    cases m with
    | nil => simp [addL, mEval_nil]
    | cons b m => simp [addL, mEval_cons, ih]; ring

theorem mEval_scaleL (c : R) (l : List R) (x : R) :
    mEval (scaleL c l) x = c * mEval l x := by
  induction l with
  | nil => simp [scaleL, mEval_nil]
  | cons a l ih => simp [scaleL, mEval_cons] at ih ⊢; rw [ih]; ring

theorem mEval_shiftL (k : ℕ) (l : List R) (x : R) :
    mEval (shiftL k l) x = x ^ k * mEval l x := by
  induction k with
  | zero => simp [shiftL]
  | succ k ih =>
    have : shiftL (k + 1) l = 0 :: shiftL k l := by
      simp [shiftL, List.replicate_succ]
    rw [this, mEval_cons, ih]
    ring

theorem mEval_mulL (l m : List R) (x : R) :
    mEval (mulL l m) x = mEval l x * mEval m x := by
  induction l with
  | nil => simp [mulL, mEval_nil]
  | cons a l ih =>
    show mEval (addL (scaleL a m) (0 :: mulL l m)) x = _
    rw [mEval_addL, mEval_scaleL, mEval_cons, ih, mEval_cons]
    ring

theorem mEval_powL (l : List R) (k : ℕ) (x : R) :
    mEval (powL l k) x = (mEval l x) ^ k := by
  induction k with
  | zero => simp [powL, mEval_cons, mEval_nil]
  | succ k ih => rw [powL, mEval_mulL, ih, pow_succ]; ring

theorem mEval_append (l m : List R) (x : R) :
    mEval (l ++ m) x = mEval l x + x ^ l.length * mEval m x := by
  induction l with
  | nil => simp [mEval_nil]
  | cons a l ih => simp [mEval_cons, ih]; ring

theorem mEval_subL (l m : List R) (h : l.length = m.length) (x : R) :
    mEval (subL l m) x = mEval l x - mEval m x := by
  induction l generalizing m with
  | nil =>
    cases m with
    | nil => simp [subL, mEval_nil]
    | cons b m => simp at h
  | cons a l ih =>
    cases m with
    | nil => simp at h
    | cons b m =>
      simp only [List.length_cons, Nat.add_right_cancel_iff] at h
      show mEval ((a - b) :: subL l m) x = _
      rw [mEval_cons, ih m h, mEval_cons, mEval_cons]
      ring

theorem mEval_dropLast (l : List R) (x : R) :
    mEval l x = mEval l.dropLast x + x ^ (l.length - 1) * (l.getLast?.getD 0) := by
  rcases eq_or_ne l [] with rfl | h
  · simp [mEval_nil]
  · conv_lhs => rw [← List.dropLast_append_getLast h]
    rw [mEval_append, List.getLast?_eq_getLast _ h, Option.getD_some, mEval_cons,
      List.length_dropLast]
    simp [mEval_nil]

theorem getLastD_eq_getD (l : List R) :
    l.getLast?.getD 0 = l.getD (l.length - 1) 0 := by
  rcases eq_or_ne l [] with rfl | h
  · rfl
  · rw [List.getLast?_eq_getLast _ h, Option.getD_some,
      List.getD_eq_getElem _ _ (by
        have := List.length_pos.mpr h
        omega),
      List.getLast_eq_getElem]

theorem length_addL (l m : List R) : (addL l m).length = max l.length m.length := by
  induction l generalizing m with
  | nil => simp [addL]
  | cons a l ih =>
    cases m with
    | nil => simp [addL]
    | cons b m => simp [addL, ih]; omega

theorem length_scaleL (c : R) (l : List R) : (scaleL c l).length = l.length := by
  simp [scaleL]

theorem length_shiftL (k : ℕ) (l : List R) :
    (shiftL k l).length = k + l.length := by
  simp [shiftL]

theorem length_subL (l m : List R) :
    (subL l m).length = min l.length m.length := by
  simp [subL]

theorem length_mulL (l m : List R) (hl : l ≠ []) (hm : m ≠ []) :
    (mulL l m).length = l.length + m.length - 1 := by
  induction l with
  | nil => exact absurd rfl hl
  | cons a l ih =>
    show (addL (scaleL a m) (0 :: mulL l m)).length = _
    rcases eq_or_ne l [] with rfl | h
    · simp [mulL, addL, length_addL, length_scaleL]
      have := List.length_pos.mpr hm
      omega
    · rw [length_addL, length_scaleL, List.length_cons, ih h]
      have := List.length_pos.mpr hm
      have := List.length_pos.mpr h
      simp only [List.length_cons]
      omega

theorem length_powL (k : ℕ) :
    (powL ([1, -1] : List R) k).length = k + 1 := by
  induction k with
  | zero => rfl
  | succ k ih =>
    rw [powL, length_mulL _ _ (by simp) (by
      intro h
      have := congrArg List.length h
      rw [ih] at this
      simp at this), ih]
    simp
    omega

theorem trimL_append_zero (l : List R) : trimL (l ++ [0]) = trimL l := by
  unfold trimL
  rw [List.reverse_append]
  simp

theorem trimL_append_ne_zero (l : List R) {a : R} (ha : a ≠ 0) :
    trimL (l ++ [a]) = l ++ [a] := by
  unfold trimL
  rw [List.reverse_append]
  simp [List.dropWhile_cons, ha]

theorem mEval_trimL (l : List R) (x : R) : mEval (trimL l) x = mEval l x := by
  induction l using List.reverseRecOn with
  | nil => rfl
  | append_singleton l a ih =>
    rcases eq_or_ne a 0 with rfl | ha
    · rw [trimL_append_zero, ih, mEval_append]
      simp [mEval_cons, mEval_nil]
    · rw [trimL_append_ne_zero l ha]

theorem trimL_getLast_ne_zero (l : List R) (h : trimL l ≠ []) :
    (trimL l).getLast?.getD 0 ≠ 0 := by
  induction l using List.reverseRecOn with
  | nil => exact absurd rfl h
  | append_singleton l a ih =>
    rcases eq_or_ne a 0 with rfl | ha
    · rw [trimL_append_zero] at h ⊢
      exact ih h
    · rw [trimL_append_ne_zero l ha, List.getLast?_eq_getLast _ (by simp),
        Option.getD_some, List.getLast_append]
      exact ha

theorem divAux_succ (fuel : ℕ) (a b' : List R) (hb : b' ≠ [])
    (hlen : b'.length ≤ a.length) :
    divAux (fuel + 1) a b' =
      (addL (shiftL (a.length - b'.length)
          [(a.getLast?.getD 0) / (b'.getLast?.getD 0)])
        (divAux fuel
          ((subL a (shiftL (a.length - b'.length)
            (scaleL ((a.getLast?.getD 0) / (b'.getLast?.getD 0)) b'))).dropLast) b').1,
       (divAux fuel
          ((subL a (shiftL (a.length - b'.length)
            (scaleL ((a.getLast?.getD 0) / (b'.getLast?.getD 0)) b'))).dropLast) b').2) := by
  conv_lhs => rw [divAux]
  rw [if_neg (not_or.mpr ⟨hb, not_lt.mpr hlen⟩)]

theorem divAux_length (fuel : ℕ) (a b' : List R) :
    (divAux fuel a b').1.length ≤ a.length ∧
    (divAux fuel a b').2.length ≤ a.length := by
  induction fuel generalizing a with
  | zero => simp [divAux]
  | succ fuel ih =>
    by_cases hb : b' = []
    · unfold divAux
      rw [if_pos (Or.inl hb)]
      simp
    by_cases hlt : a.length < b'.length
    · unfold divAux
      rw [if_pos (Or.inr hlt)]
      simp
    push_neg at hlt
    rw [divAux_succ fuel a b' hb hlt]
    have hb1 : 0 < b'.length := List.length_pos.mpr hb
    have hla' : ((subL a (shiftL (a.length - b'.length)
        (scaleL ((a.getLast?.getD 0) / (b'.getLast?.getD 0)) b'))).dropLast).length
        = a.length - 1 := by
      rw [List.length_dropLast, length_subL, length_shiftL, length_scaleL]
      omega
    obtain ⟨ihq, ihr⟩ := ih ((subL a (shiftL (a.length - b'.length)
        (scaleL ((a.getLast?.getD 0) / (b'.getLast?.getD 0)) b'))).dropLast)
    rw [hla'] at ihq ihr
    constructor
    · rw [length_addL, length_shiftL]
      simp only [List.length_cons, List.length_nil]
      omega
    · simpa using le_trans ihr (by omega)

theorem getD_subL (a b : List R) (i : ℕ) (hi : i < a.length)
    (hi' : i < b.length) :
    (subL a b).getD i 0 = a.getD i 0 - b.getD i 0 := by
  induction a generalizing b i with
  | nil => simp at hi
  | cons x a ih =>
    cases b with
    | nil => simp at hi'
    | cons y b =>
      cases i with
      | zero => rfl
      | succ i =>
        show (subL a b).getD i 0 = _
        exact ih b i (by simpa using hi) (by simpa using hi')

theorem getD_replicate_append (k : ℕ) (l : List R) (i : ℕ) :
    (List.replicate k (0 : R) ++ l).getD (k + i) 0 = l.getD i 0 := by
  induction k with
  | zero => simp
  | succ k ih =>
    rw [List.replicate_succ]
    show (0 :: (List.replicate k 0 ++ l)).getD (k + 1 + i) 0 = _
    rw [show k + 1 + i = (k + i) + 1 from by omega, List.getD_cons_succ]
    exact ih

theorem getD_scaleL (c : R) (l : List R) (i : ℕ) (hi : i < l.length) :
    (scaleL c l).getD i 0 = c * l.getD i 0 := by
  induction l generalizing i with
  | nil => simp at hi
  | cons x l ih =>
    cases i with
    | zero => rfl
    | succ i =>
      show (scaleL c l).getD i 0 = _
      exact ih i (by simpa using hi)

theorem divAux_spec (fuel : ℕ) (a b' : List R) (x : R)
    (hlast : b' ≠ [] → b'.getLast?.getD 0 ≠ 0) :
    mEval a x
      = mEval b' x * mEval (divAux fuel a b').1 x
        + mEval (divAux fuel a b').2 x := by
  induction fuel generalizing a with
  | zero => simp [divAux, mEval_nil]
  | succ fuel ih =>
    by_cases hb : b' = []
    · unfold divAux
      rw [if_pos (Or.inl hb)]
      simp [mEval_nil]
    by_cases hlt : a.length < b'.length
    · unfold divAux
      rw [if_pos (Or.inr hlt)]
      simp [mEval_nil]
    push_neg at hlt
    rw [divAux_succ fuel a b' hb hlt]
    have hb1 : 0 < b'.length := List.length_pos.mpr hb
    have ha1 : 0 < a.length := lt_of_lt_of_le hb1 hlt
    set c := (a.getLast?.getD 0) / (b'.getLast?.getD 0) with hc
    set s := shiftL (a.length - b'.length) (scaleL c b') with hs
    have hslen : s.length = a.length := by
      rw [hs, length_shiftL, length_scaleL]
      omega
    have haflen : (subL a s).length = a.length := by
      rw [length_subL, hslen, min_self]
    have hlast0 : (subL a s).getLast?.getD 0 = 0 := by
      rw [getLastD_eq_getD, haflen]
      rw [getD_subL a s (a.length - 1) (by omega) (by rw [hslen]; omega)]
      have hsd : s.getD (a.length - 1) 0 = c * b'.getD (b'.length - 1) 0 := by
        rw [hs]
        rw [show shiftL (a.length - b'.length) (scaleL c b')
            = List.replicate (a.length - b'.length) (0 : R) ++ scaleL c b'
          from rfl]
        rw [show a.length - 1 = (a.length - b'.length) + (b'.length - 1)
          from by omega]
        rw [getD_replicate_append]
        exact getD_scaleL c b' _ (by omega)
      rw [hsd, ← getLastD_eq_getD, ← getLastD_eq_getD, hc]
      rw [div_mul_cancel₀ _ (hlast hb), sub_self]
    have hmev : mEval (subL a s).dropLast x = mEval a x - mEval s x := by
      have h1 := mEval_dropLast (subL a s) x
      rw [hlast0, mul_zero, add_zero] at h1
      rw [← h1, mEval_subL a s hslen.symm x]
    have hrec := ih ((subL a s).dropLast)
    dsimp only
    rw [mEval_addL, mEval_shiftL, mEval_cons, mEval_nil, mul_zero, add_zero]
    have hseval : mEval s x = x ^ (a.length - b'.length) * (c * mEval b' x) := by
      rw [hs, mEval_shiftL, mEval_scaleL]
    have h2 : mEval a x - mEval s x
        = mEval b' x * mEval (divAux fuel ((subL a s).dropLast) b').1 x
          + mEval (divAux fuel ((subL a s).dropLast) b').2 x := by
      rw [← hmev]
      exact hrec
    linear_combination h2 + hseval

theorem mEval_eq_sum (l : List R) (x : R) :
    mEval l x = ∑ j ∈ Finset.range l.length, l.getD j 0 * x ^ j := by
  induction l with
  | nil => simp [mEval_nil]
  | cons a l ih =>
    rw [mEval_cons, ih, List.length_cons, Finset.sum_range_succ']
    simp only [List.getD_cons_succ, List.getD_cons_zero, pow_zero, mul_one,
      Finset.mul_sum]
    rw [add_comm]
    congr 1
    apply Finset.sum_congr rfl
    intro j _
    ring

theorem mEval_eq_sum_of_le (l : List R) (m : ℕ) (h : l.length ≤ m) (x : R) :
    mEval l x = ∑ j ∈ Finset.range m, l.getD j 0 * x ^ j := by
  rw [mEval_eq_sum]
  apply Finset.sum_subset (Finset.range_subset.mpr h)
  intro j _ hj
  rw [Finset.mem_range, not_lt] at hj
  rw [List.getD_eq_default _ _ hj, zero_mul]

theorem mEval_foldr_addL (g : ℕ → List R) (ks : List ℕ) (x : R) :
    mEval (ks.foldr (fun k acc => addL (g k) acc) []) x
      = (ks.map (fun k => mEval (g k) x)).sum := by
  induction ks with
  | nil => simp [mEval_nil]
  | cons k ks ih => simp [mEval_addL, ih]

theorem length_foldr_addL (g : ℕ → List R) (ks : List ℕ) (L : ℕ)
    (h : ∀ k ∈ ks, (g k).length = L) :
    (ks.foldr (fun k acc => addL (g k) acc) []).length
      = if ks = [] then 0 else L := by
  induction ks with
  | nil => simp
  | cons k ks ih =>
    simp only [List.foldr_cons, length_addL]
    rw [ih (fun k hk => h k (List.mem_cons_of_mem _ hk)),
      h k (List.mem_cons_self k ks)]
    by_cases hks : ks = []
    · simp [hks]
    · rw [if_neg hks, if_neg (by simp), max_self]

theorem list_range_map_sum (f : ℕ → R) (m : ℕ) :
    ((List.range m).map f).sum = ∑ k ∈ Finset.range m, f k := by
  induction m with
  | zero => simp
  | succ m ih => rw [List.range_succ, Finset.sum_range_succ, ← ih]; simp

theorem mEval_bernBasisM (n k : ℕ) (x : R) :
    mEval (bernBasisM n k) x
      = ((n.choose k : ℕ) : R) * (x ^ k * (1 - x) ^ (n - k)) := by
  unfold bernBasisM
  rw [mEval_scaleL, mEval_mulL, mEval_shiftL, mEval_powL]
  have h1 : mEval ([1] : List R) x = 1 := by simp [mEval_cons, mEval_nil]
  have h2 : mEval ([1, -1] : List R) x = 1 - x := by
    simp [mEval_cons, mEval_nil]
    ring
  rw [h1, h2]
  ring

theorem length_bernBasisM (n k : ℕ) (hk : k ≤ n) :
    (bernBasisM n k : List R).length = n + 1 := by
  unfold bernBasisM
  rw [length_scaleL, length_mulL _ _
    (by
      intro hcon
      have := congrArg List.length hcon
      rw [length_shiftL] at this
      simp at this)
    (by
      intro hcon
      have := congrArg List.length hcon
      rw [length_powL] at this
      simp at this),
    length_shiftL, length_powL]
  simp
  omega

theorem length_bernToMono (cs : List R) : (bernToMono cs).length = cs.length := by
  unfold bernToMono
  rw [length_foldr_addL _ _ (cs.length - 1 + 1)
    (by
      intro k hk
      rw [List.mem_range] at hk
      rw [length_scaleL, length_bernBasisM _ _ (by omega)])]
  rcases eq_or_ne cs [] with rfl | h
  · simp
  · rw [if_neg (by simpa using h)]
    have := List.length_pos.mpr h
    omega

theorem mEval_bernToMono (cs : List R) (x : R) :
    mEval (bernToMono cs) x = bernEval cs x := by
  unfold bernToMono bernEval bsum
  rw [mEval_foldr_addL, list_range_map_sum]
  rcases eq_or_ne cs [] with rfl | h
  · simp
  · have hlen : cs.length = cs.length - 1 + 1 := by
      have := List.length_pos.mpr h
      omega
    rw [show Finset.range cs.length = Finset.range (cs.length - 1 + 1) from by
      rw [← hlen]]
    apply Finset.sum_congr rfl
    intro k _
    rw [mEval_scaleL, mEval_bernBasisM]
    ring

theorem bern_partition_pow (n j : ℕ) (hj : j ≤ n) (x : R) :
    ∑ k ∈ Finset.range (n + 1),
        ((k.choose j : ℕ) : R) * ((n.choose k : ℕ) : R) * x ^ k * (1 - x) ^ (n - k)
      = ((n.choose j : ℕ) : R) * x ^ j := by
  have hsub : Finset.Ico j (n + 1) ⊆ Finset.range (n + 1) := by
    intro k hk
    rw [Finset.mem_Ico] at hk
    rw [Finset.mem_range]
    omega
  rw [← Finset.sum_subset hsub
    (by
      intro k hk hknot
      rw [Finset.mem_range] at hk
      rw [Finset.mem_Ico] at hknot
      have hkj : k < j := by omega
      rw [Nat.choose_eq_zero_of_lt hkj]
      simp)]
  rw [Finset.sum_Ico_eq_sum_range]
  have hrange : n + 1 - j = (n - j) + 1 := by omega
  rw [hrange]
  have hterm : ∀ i ∈ Finset.range ((n - j) + 1),
      (((j + i).choose j : ℕ) : R) * ((n.choose (j + i) : ℕ) : R)
          * x ^ (j + i) * (1 - x) ^ (n - (j + i))
        = ((n.choose j : ℕ) : R) * x ^ j
          * (x ^ i * (1 - x) ^ ((n - j) - i) * (((n - j).choose i : ℕ) : R)) := by
    intro i hi
    rw [Finset.mem_range] at hi
    have hin : j + i ≤ n := by omega
    have hcast : (((j + i).choose j : ℕ) : R) * ((n.choose (j + i) : ℕ) : R)
        = ((n.choose j : ℕ) : R) * (((n - j).choose i : ℕ) : R) := by
      have hmul := Nat.choose_mul hin (Nat.le_add_right j i)
      rw [show j + i - j = i from by omega] at hmul
      rw [← Nat.cast_mul, ← Nat.cast_mul,
        mul_comm ((j + i).choose j) (n.choose (j + i)), hmul]
    have hxp : x ^ (j + i) = x ^ j * x ^ i := pow_add x j i
    have hyp : n - (j + i) = (n - j) - i := by omega
    rw [hyp, hxp]
    calc (((j + i).choose j : ℕ) : R) * ((n.choose (j + i) : ℕ) : R)
          * (x ^ j * x ^ i) * (1 - x) ^ ((n - j) - i)
        = ((((j + i).choose j : ℕ) : R) * ((n.choose (j + i) : ℕ) : R))
            * (x ^ j * x ^ i) * (1 - x) ^ ((n - j) - i) := by ring
      _ = (((n.choose j : ℕ) : R) * (((n - j).choose i : ℕ) : R))
            * (x ^ j * x ^ i) * (1 - x) ^ ((n - j) - i) := by rw [hcast]
      _ = _ := by ring
  rw [Finset.sum_congr rfl hterm, ← Finset.mul_sum]
  have hbin := add_pow x (1 - x) (n - j)
  rw [show x + (1 - x) = 1 from by ring, one_pow] at hbin
  rw [← hbin]
  ring

theorem getD_ofFn {m : ℕ} (F : Fin m → R) {j : ℕ} (hj : j < m) :
    (List.ofFn F).getD j 0 = F ⟨j, hj⟩ := by
  rw [List.getD_eq_getElem _ _ (by simpa using hj), List.getElem_ofFn]

theorem bernEval_monoToBern (ms : List R) (n : ℕ) (h : ms.length ≤ n + 1)
    (x : R) : bernEval (monoToBern ms n) x = mEval ms x := by
  unfold bernEval
  have hlen : (monoToBern ms n).length = n + 1 := by
    unfold monoToBern
    simp
  rw [hlen, Nat.add_sub_cancel]
  unfold bsum
  calc ∑ k ∈ Finset.range (n + 1),
        (monoToBern ms n).getD k 0 * ((n.choose k : ℕ) : R) * x ^ k
          * (1 - x) ^ (n - k)
      = ∑ k ∈ Finset.range (n + 1), ∑ j ∈ Finset.range (n + 1),
          ms.getD j 0 / ((n.choose j : ℕ) : R)
            * (((k.choose j : ℕ) : R) * ((n.choose k : ℕ) : R) * x ^ k
                * (1 - x) ^ (n - k)) := by
        apply Finset.sum_congr rfl
        intro k hk
        rw [Finset.mem_range] at hk
        unfold monoToBern
        rw [getD_ofFn _ hk]
        dsimp only
        rw [Finset.sum_subset (Finset.range_subset.mpr (by omega : k + 1 ≤ n + 1))
          (by
            intro j hj hjn
            rw [Finset.mem_range, not_lt] at hjn
            rw [Nat.choose_eq_zero_of_lt (by omega)]
            simp)]
        rw [Finset.sum_mul, Finset.sum_mul, Finset.sum_mul]
        apply Finset.sum_congr rfl
        intro j _
        ring
    _ = ∑ j ∈ Finset.range (n + 1), ms.getD j 0 / ((n.choose j : ℕ) : R)
          * ∑ k ∈ Finset.range (n + 1),
              ((k.choose j : ℕ) : R) * ((n.choose k : ℕ) : R) * x ^ k
                * (1 - x) ^ (n - k) := by
        rw [Finset.sum_comm]
        apply Finset.sum_congr rfl
        intro j _
        rw [Finset.mul_sum]
    _ = ∑ j ∈ Finset.range (n + 1), ms.getD j 0 * x ^ j := by
        apply Finset.sum_congr rfl
        intro j hj
        rw [Finset.mem_range] at hj
        rw [bern_partition_pow n j (by omega) x]
        have hc : ((n.choose j : ℕ) : R) ≠ 0 := by
          exact_mod_cast (Nat.choose_pos (by omega : j ≤ n)).ne'
        field_simp
        ring
    _ = mEval ms x := (mEval_eq_sum_of_le ms (n + 1) h x).symm

theorem divL_spec (a b : List R) (x : R) :
    mEval a x = mEval b x * mEval (divL a b).1 x + mEval (divL a b).2 x := by
  unfold divL
  have hspec := divAux_spec a.length a (trimL b) x
    (fun hne => trimL_getLast_ne_zero b hne)
  rw [mEval_trimL] at hspec
  exact hspec

theorem divL_length (a b : List R) :
    (divL a b).1.length ≤ a.length ∧ (divL a b).2.length ≤ a.length := by
  unfold divL
  exact divAux_length a.length a (trimL b)

theorem length_monoToBern (ms : List R) (n : ℕ) :
    (monoToBern ms n).length = n + 1 := by
  unfold monoToBern
  simp

theorem bernEval_single_zero (t : R) : bernEval ([0] : List R) t = 0 := by
  simp [bernEval, bsum]

theorem bernEval_multiply (p g : Bernstein R) (hp : p.pars ≠ [])
    (hg : g.pars ≠ []) (t : R) :
    bernEval (p.multiply g).pars t = bernEval p.pars t * bernEval g.pars t := by
  unfold Bernstein.multiply
  dsimp only
  have hp1 : 0 < p.pars.length := List.length_pos.mpr hp
  have hg1 : 0 < g.pars.length := List.length_pos.mpr hg
  have hbp : bernToMono p.pars ≠ [] :=
    List.length_pos.mp (by rw [length_bernToMono]; exact hp1)
  have hbg : bernToMono g.pars ≠ [] :=
    List.length_pos.mp (by rw [length_bernToMono]; exact hg1)
  have hlen : (mulL (bernToMono p.pars) (bernToMono g.pars)).length
      ≤ p.degree + g.degree + 1 := by
    rw [length_mulL _ _ hbp hbg, length_bernToMono, length_bernToMono]
    unfold Bernstein.degree
    omega
  rw [bernEval_monoToBern _ _ hlen t, mEval_mulL, mEval_bernToMono,
    mEval_bernToMono]

theorem bernEval_sum (p g : Bernstein R) (t : R) :
    bernEval (p.sum g).pars t = bernEval p.pars t + bernEval g.pars t := by
  unfold Bernstein.sum
  dsimp only
  have hlen : (addL (bernToMono p.pars) (bernToMono g.pars)).length
      ≤ max p.degree g.degree + 1 := by
    rw [length_addL, length_bernToMono, length_bernToMono]
    unfold Bernstein.degree
    omega
  rw [bernEval_monoToBern _ _ hlen t, mEval_addL, mEval_bernToMono,
    mEval_bernToMono]

/-- Claim C4: the division identity: for every pair of Bernstein
polynomials `p`, `g` with `g` not the zero polynomial,
`p = g * p.quotient(g) + p.reminder(g)` (exactly, over exact coefficient
arithmetic), where `quotient` and `reminder` are the components of
`divmod`, `*` is the polynomial product and `+` the polynomial sum. -/
theorem division_identity (p g : Bernstein ℚ) (h : ¬ g.isZero) (t : ℚ) :
    bernEval (((g.multiply (p.quotient g)).sum (p.reminder g)).pars) t
      = bernEval p.pars t := by
  have hg : g.pars ≠ [] := by
    intro hcon
    exact h (fun c hc => by rw [hcon] at hc; simp at hc)
  have hq : (p.quotient g).pars ≠ [] := by
    unfold Bernstein.quotient Bernstein.divmod
    by_cases hcase : (∀ c ∈ g.pars, c = 0) ∨ p.degree < g.degree
    · rw [if_pos hcase]
      simp
    · rw [if_neg hcase]
      dsimp only
      intro hcon
      have := congrArg List.length hcon
      rw [length_monoToBern] at this
      simp at this
  rw [bernEval_sum, bernEval_multiply g (p.quotient g) hg hq]
  unfold Bernstein.quotient Bernstein.reminder Bernstein.divmod
  by_cases hcase : (∀ c ∈ g.pars, c = 0) ∨ p.degree < g.degree
  · rw [if_pos hcase]
    dsimp only
    rw [bernEval_single_zero, mul_zero, zero_add]
  · rw [if_neg hcase]
    dsimp only
    have hlq : (divL (bernToMono p.pars) (bernToMono g.pars)).1.length
        ≤ p.degree + 1 := by
      have h1 := (divL_length (bernToMono p.pars) (bernToMono g.pars)).1
      rw [length_bernToMono] at h1
      unfold Bernstein.degree
      omega
    have hlr : (divL (bernToMono p.pars) (bernToMono g.pars)).2.length
        ≤ p.degree + 1 := by
      have h2 := (divL_length (bernToMono p.pars) (bernToMono g.pars)).2
      rw [length_bernToMono] at h2
      unfold Bernstein.degree
      omega
    rw [bernEval_monoToBern _ _ hlq t, bernEval_monoToBern _ _ hlr t]
    rw [← mEval_bernToMono g.pars t, ← mEval_bernToMono p.pars t]
    exact (divL_spec (bernToMono p.pars) (bernToMono g.pars) t).symm

theorem division_identity_witness :
    ¬ (Bernstein.mk ([1, 1] : List ℚ) 0 1).isZero ∧
    bernEval ((((Bernstein.mk ([1, 1] : List ℚ) 0 1).multiply
        ((Bernstein.mk ([2, 3, 5] : List ℚ) 0 1).quotient
          (Bernstein.mk ([1, 1] : List ℚ) 0 1))).sum
        ((Bernstein.mk ([2, 3, 5] : List ℚ) 0 1).reminder
          (Bernstein.mk ([1, 1] : List ℚ) 0 1))).pars) (1 / 3)
      = bernEval (Bernstein.mk ([2, 3, 5] : List ℚ) 0 1).pars (1 / 3) := by
  have h : ¬ (Bernstein.mk ([1, 1] : List ℚ) 0 1).isZero := by
    intro hz
    have := hz 1 (by simp)
    norm_num at this
  exact ⟨h, division_identity (Bernstein.mk ([2, 3, 5] : List ℚ) 0 1)
    (Bernstein.mk ([1, 1] : List ℚ) 0 1) h (1 / 3)⟩

/-! ### de Casteljau evaluation computes the Bernstein sum -/

theorem bsum_succ_blend (m : ℕ) (c : ℕ → R) (t : R) :
    bsum (m + 1) c t = bsum m (fun j => (1 - t) * c j + t * c (j + 1)) t := by
  unfold bsum
  rw [Finset.sum_range_succ']
  have hsplit : ∀ j ∈ Finset.range (m + 1),
      c (j + 1) * (((m + 1).choose (j + 1) : ℕ) : R) * t ^ (j + 1)
          * (1 - t) ^ (m + 1 - (j + 1))
        = c (j + 1) * ((m.choose j : ℕ) : R) * t ^ (j + 1) * (1 - t) ^ (m - j)
          + c (j + 1) * ((m.choose (j + 1) : ℕ) : R) * t ^ (j + 1)
              * (1 - t) ^ (m - j) := by
    intro j _
    have hch : (((m + 1).choose (j + 1) : ℕ) : R)
        = ((m.choose j : ℕ) : R) + ((m.choose (j + 1) : ℕ) : R) := by
      rw [Nat.choose_succ_succ]
      push_cast
      ring
    rw [show m + 1 - (j + 1) = m - j from by omega, hch]
    ring
  rw [Finset.sum_congr rfl hsplit, Finset.sum_add_distrib]
  have hrhs : ∀ j ∈ Finset.range (m + 1),
      ((1 - t) * c j + t * c (j + 1)) * ((m.choose j : ℕ) : R) * t ^ j
          * (1 - t) ^ (m - j)
        = c j * ((m.choose j : ℕ) : R) * t ^ j * (1 - t) ^ (m - j + 1)
          + c (j + 1) * ((m.choose j : ℕ) : R) * t ^ (j + 1)
              * (1 - t) ^ (m - j) := by
    intro j _
    rw [pow_succ, pow_succ]
    ring
  rw [Finset.sum_congr rfl hrhs, Finset.sum_add_distrib]
  have hkey : (∑ j ∈ Finset.range (m + 1),
        c (j + 1) * ((m.choose (j + 1) : ℕ) : R) * t ^ (j + 1) * (1 - t) ^ (m - j))
      + c 0 * (((m + 1).choose 0 : ℕ) : R) * t ^ 0 * (1 - t) ^ (m + 1 - 0)
      = ∑ j ∈ Finset.range (m + 1),
          c j * ((m.choose j : ℕ) : R) * t ^ j * (1 - t) ^ (m - j + 1) := by
    conv_lhs => rw [Finset.sum_range_succ]
    conv_rhs => rw [Finset.sum_range_succ']
    rw [Nat.choose_succ_self]
    simp only [Nat.cast_zero, mul_zero, zero_mul, add_zero]
    congr 1
    · apply Finset.sum_congr rfl
      intro j hj
      rw [Finset.mem_range] at hj
      rw [show m - (j + 1) + 1 = m - j from by omega]
    · simp
  linarith [hkey]

theorem getD_casteljauStep (cs : List R) (t : R) (j : ℕ)
    (hj : j + 1 < cs.length) :
    (casteljauStep t cs).getD j 0
      = (1 - t) * cs.getD j 0 + t * cs.getD (j + 1) 0 := by
  induction cs generalizing j with
  | nil => simp at hj
  | cons a cs ih =>
    cases cs with
    | nil => simp at hj
    | cons b rest =>
      cases j with
      | zero => rfl
      | succ j =>
        have := ih (j := j) (by simpa using hj)
        simpa [casteljauStep] using this

theorem bernEval_casteljauStep (cs : List R) (t : R) (h : 2 ≤ cs.length) :
    bernEval (casteljauStep t cs) t = bernEval cs t := by
  unfold bernEval
  rw [length_casteljauStep]
  have hm : cs.length - 1 = (cs.length - 2) + 1 := by omega
  rw [show cs.length - 1 - 1 = cs.length - 2 from by omega, hm, bsum_succ_blend]
  unfold bsum
  apply Finset.sum_congr rfl
  intro j hj
  rw [Finset.mem_range] at hj
  dsimp only
  rw [getD_casteljauStep cs t j (by omega)]

theorem casteljauAux_eq (fuel : ℕ) (cs : List R) (t : R)
    (h : cs.length ≤ fuel) :
    casteljauAux fuel cs t = bernEval cs t := by
  induction fuel generalizing cs with
  | zero =>
    have : cs = [] := List.length_eq_zero.mp (by omega)
    subst this
    simp [casteljauAux, bernEval, bsum]
  | succ fuel ih =>
    match cs with
    | [] => simp [casteljauAux, bernEval, bsum]
    | [a] => simp [casteljauAux, bernEval, bsum]
    | a :: b :: rest =>
      rw [show casteljauAux (fuel + 1) (a :: b :: rest) t
          = casteljauAux fuel (casteljauStep t (a :: b :: rest)) t from rfl]
      rw [ih _ (by
        rw [length_casteljauStep]
        simp only [List.length_cons] at h ⊢
        omega)]
      exact bernEval_casteljauStep _ t (by simp)

theorem casteljau_eq_bernEval (cs : List R) (t : R) :
    casteljau cs t = bernEval cs t :=
  casteljauAux_eq cs.length cs t (le_refl _)

/-! ### Stage invariants of the Newton-Bernstein loop -/

theorem bsum_eq_bernB (n : ℕ) (c : ℕ → R) (t : R) :
    bsum n c t = ∑ j ∈ Finset.range (n + 1), c j * bernB n j t := by
  unfold bsum bernB
  apply Finset.sum_congr rfl
  intro j _
  ring

theorem bernB_t_mul (m j : ℕ) (hj : j ≤ m) (t : R) :
    t * bernB m j t
      = (((j + 1 : ℕ) : R) / ((m + 1 : ℕ) : R)) * bernB (m + 1) (j + 1) t := by
  have hm1 : ((m + 1 : ℕ) : R) ≠ 0 := by
    exact_mod_cast Nat.succ_ne_zero m
  have hc : ((j + 1 : ℕ) : R) * (((m + 1).choose (j + 1) : ℕ) : R)
      = ((m + 1 : ℕ) : R) * ((m.choose j : ℕ) : R) := by
    rw [← Nat.cast_mul, ← Nat.cast_mul, mul_comm (j + 1) ((m + 1).choose (j + 1)),
      ← Nat.succ_mul_choose_eq]
  unfold bernB
  rw [show m + 1 - (j + 1) = m - j from by omega]
  rw [div_mul_eq_mul_div, eq_div_iff hm1]
  rw [pow_succ]
  linear_combination (-(t ^ j * t * (1 - t) ^ (m - j))) * hc

theorem bernB_one_sub_t_mul (m j : ℕ) (hj : j ≤ m) (t : R) :
    (1 - t) * bernB m j t
      = (((m + 1 - j : ℕ) : R) / ((m + 1 : ℕ) : R)) * bernB (m + 1) j t := by
  have hm1 : ((m + 1 : ℕ) : R) ≠ 0 := by
    exact_mod_cast Nat.succ_ne_zero m
  have hc : ((m + 1 - j : ℕ) : R) * (((m + 1).choose j : ℕ) : R)
      = ((m + 1 : ℕ) : R) * ((m.choose j : ℕ) : R) := by
    rw [← Nat.cast_mul, ← Nat.cast_mul, mul_comm (m + 1 - j) ((m + 1).choose j),
      mul_comm (m + 1) (m.choose j), ← Nat.choose_mul_succ_eq]
  unfold bernB
  rw [show m + 1 - j = (m - j) + 1 from by omega]
  rw [show m + 1 - j = (m - j) + 1 from by omega] at hc
  rw [div_mul_eq_mul_div, eq_div_iff hm1]
  rw [pow_succ]
  linear_combination (-(t ^ j * (1 - t) ^ (m - j) * (1 - t))) * hc

theorem bernB_linear_mul (m j : ℕ) (hj : j ≤ m) (a t : R) :
    (t - a) * bernB m j t
      = (1 - a) * ((((j + 1 : ℕ) : R) / ((m + 1 : ℕ) : R)) * bernB (m + 1) (j + 1) t)
        - a * ((((m + 1 - j : ℕ) : R) / ((m + 1 : ℕ) : R)) * bernB (m + 1) j t) := by
  rw [← bernB_t_mul m j hj t, ← bernB_one_sub_t_mul m j hj t]
  ring

theorem bernB_elevate (m j : ℕ) (hj : j ≤ m) (t : R) :
    bernB m j t
      = (((j + 1 : ℕ) : R) / ((m + 1 : ℕ) : R)) * bernB (m + 1) (j + 1) t
        + (((m + 1 - j : ℕ) : R) / ((m + 1 : ℕ) : R)) * bernB (m + 1) j t := by
  rw [← bernB_t_mul m j hj t, ← bernB_one_sub_t_mul m j hj t]
  ring

theorem sum_shift_down (m : ℕ) (u : ℕ → R) (τ : R) :
    ∑ j ∈ Finset.range (m + 1),
        u j * ((((m + 1 - j : ℕ) : R) / ((m + 1 : ℕ) : R)) * bernB (m + 1) j τ)
      = (∑ j ∈ Finset.range (m + 1),
          u (j + 1) * ((((m - j : ℕ) : R) / ((m + 1 : ℕ) : R))
            * bernB (m + 1) (j + 1) τ))
        + u 0 * bernB (m + 1) 0 τ := by
  have hm1 : ((m + 1 : ℕ) : R) ≠ 0 := by
    exact_mod_cast Nat.succ_ne_zero m
  conv_lhs => rw [Finset.sum_range_succ']
  conv_rhs => rw [Finset.sum_range_succ]
  rw [show ((m - m : ℕ) : R) = 0 from by simp]
  rw [zero_div, zero_mul, mul_zero, add_zero]
  congr 1
  · apply Finset.sum_congr rfl
    intro j hj
    rw [Finset.mem_range] at hj
    rw [show m + 1 - (j + 1) = m - j from by omega]
  · rw [show ((m + 1 - 0 : ℕ) : R) = ((m + 1 : ℕ) : R) from by simp]
    rw [div_self hm1, one_mul]

theorem bsum_wStage (tt : ℕ → R) (m : ℕ) (w : ℕ → R) (τ : R) :
    bsum (m + 1) (wStage tt (m + 1) w) τ = (τ - tt m) * bsum m w τ := by
  conv_lhs => rw [bsum_eq_bernB, Finset.sum_range_succ' _ (m + 1)]
  conv_rhs => rw [bsum_eq_bernB, Finset.mul_sum]
  have hw0 : wStage tt (m + 1) w 0 = -(w 0) * tt m := by
    unfold wStage
    rw [if_pos rfl, Nat.add_sub_cancel]
  have hwj : ∀ j ∈ Finset.range (m + 1),
      wStage tt (m + 1) w (j + 1) * bernB (m + 1) (j + 1) τ
        = w j * (1 - tt m)
            * ((((j + 1 : ℕ) : R) / ((m + 1 : ℕ) : R)) * bernB (m + 1) (j + 1) τ)
          - tt m * w (j + 1)
            * ((((m - j : ℕ) : R) / ((m + 1 : ℕ) : R)) * bernB (m + 1) (j + 1) τ) := by
    intro j hj
    rw [Finset.mem_range] at hj
    unfold wStage
    rw [if_neg (Nat.succ_ne_zero j), if_pos (by omega : j + 1 ≤ m + 1),
      Nat.add_sub_cancel, Nat.add_sub_cancel,
      show m + 1 - (j + 1) = m - j from by omega]
    push_cast
    ring
  have hrhs : ∀ j ∈ Finset.range (m + 1),
      (τ - tt m) * (w j * bernB m j τ)
        = w j * (1 - tt m)
            * ((((j + 1 : ℕ) : R) / ((m + 1 : ℕ) : R)) * bernB (m + 1) (j + 1) τ)
          - tt m * w j
            * ((((m + 1 - j : ℕ) : R) / ((m + 1 : ℕ) : R)) * bernB (m + 1) j τ) := by
    intro j hj
    rw [Finset.mem_range] at hj
    calc (τ - tt m) * (w j * bernB m j τ)
        = w j * ((τ - tt m) * bernB m j τ) := by ring
      _ = _ := by
          rw [bernB_linear_mul m j (by omega) (tt m) τ]
          ring
  rw [Finset.sum_congr rfl hwj, Finset.sum_sub_distrib, hw0,
    Finset.sum_congr rfl hrhs, Finset.sum_sub_distrib]
  have hshift := sum_shift_down m (fun j => tt m * w j) τ
  simp only [] at hshift
  rw [hshift]
  ring

theorem bsum_cStage (m : ℕ) (fs ws c : ℕ → R) (τ : R) :
    bsum (m + 1) (cStage (m + 1) fs ws c) τ
      = bsum m c τ + fs (m + 1) * bsum (m + 1) ws τ := by
  conv_lhs => rw [bsum_eq_bernB, Finset.sum_range_succ' _ (m + 1)]
  conv_rhs => rw [bsum_eq_bernB, bsum_eq_bernB, Finset.mul_sum,
    Finset.sum_range_succ' _ (m + 1)]
  have hc0 : cStage (m + 1) fs ws c 0 = c 0 + ws 0 * fs (m + 1) := by
    unfold cStage
    rw [if_pos rfl]
  have hcj : ∀ j ∈ Finset.range (m + 1),
      cStage (m + 1) fs ws c (j + 1) * bernB (m + 1) (j + 1) τ
        = c j * ((((j + 1 : ℕ) : R) / ((m + 1 : ℕ) : R)) * bernB (m + 1) (j + 1) τ)
          + c (j + 1)
              * ((((m - j : ℕ) : R) / ((m + 1 : ℕ) : R)) * bernB (m + 1) (j + 1) τ)
          + fs (m + 1) * (ws (j + 1) * bernB (m + 1) (j + 1) τ) := by
    intro j hj
    rw [Finset.mem_range] at hj
    unfold cStage
    rw [if_neg (Nat.succ_ne_zero j), if_pos (by omega : j + 1 ≤ m + 1),
      Nat.add_sub_cancel, show m + 1 - (j + 1) = m - j from by omega]
    push_cast
    ring
  have helev : ∀ j ∈ Finset.range (m + 1),
      c j * bernB m j τ
        = c j * ((((j + 1 : ℕ) : R) / ((m + 1 : ℕ) : R)) * bernB (m + 1) (j + 1) τ)
          + c j * ((((m + 1 - j : ℕ) : R) / ((m + 1 : ℕ) : R)) * bernB (m + 1) j τ) := by
    intro j hj
    rw [Finset.mem_range] at hj
    rw [show c j * bernB m j τ = c j * (bernB m j τ) from rfl,
      bernB_elevate m j (by omega) τ]
    ring
  rw [Finset.sum_congr rfl hcj, Finset.sum_add_distrib, Finset.sum_add_distrib,
    hc0, Finset.sum_congr rfl helev, Finset.sum_add_distrib]
  have hshift := sum_shift_down m c τ
  rw [hshift]
  ring

theorem interpState_f (t f0 : ℕ → R) (s : ℕ) :
    ∀ k, (interpState t f0 s).1 k = ddiv t f0 (min s k) k := by
  induction s with
  | zero =>
    intro k
    simp [interpState, ddiv]
  | succ s ih =>
    intro k
    show ddStage t (s + 1) (interpState t f0 s).1 k = _
    unfold ddStage
    by_cases hk : s + 1 ≤ k
    · rw [if_pos hk, ih k, ih (k - 1)]
      rw [min_eq_left (by omega : s ≤ k), min_eq_left (by omega : s ≤ k - 1),
        min_eq_left (by omega : s + 1 ≤ k)]
      rfl
    · rw [if_neg hk, ih k]
      rw [min_eq_right (by omega : k ≤ s), min_eq_right (by omega : k ≤ s + 1)]

theorem interpState_w (t f0 : ℕ → R) (s : ℕ) (τ : R) :
    bsum s ((interpState t f0 s).2.1) τ
      = ∏ i ∈ Finset.range s, (τ - t i) := by
  induction s with
  | zero =>
    simp [interpState, bsum]
  | succ s ih =>
    show bsum (s + 1) (wStage t (s + 1) (interpState t f0 s).2.1) τ = _
    rw [bsum_wStage, ih, Finset.prod_range_succ]
    ring

theorem interpState_c (t f0 : ℕ → R) (s : ℕ) (τ : R) :
    bsum s ((interpState t f0 s).2.2) τ
      = ∑ σ ∈ Finset.range (s + 1),
          ddiv t f0 σ σ * ∏ i ∈ Finset.range σ, (τ - t i) := by
  induction s with
  | zero =>
    simp [interpState, bsum, ddiv]
  | succ s ih =>
    show bsum (s + 1) (cStage (s + 1) (ddStage t (s + 1) (interpState t f0 s).1)
        (wStage t (s + 1) (interpState t f0 s).2.1) (interpState t f0 s).2.2) τ = _
    rw [bsum_cStage]
    have hf : ddStage t (s + 1) (interpState t f0 s).1 (s + 1)
        = ddiv t f0 (s + 1) (s + 1) := by
      have := interpState_f t f0 (s + 1) (s + 1)
      rw [min_self] at this
      exact this
    have hw : bsum (s + 1) (wStage t (s + 1) (interpState t f0 s).2.1) τ
        = ∏ i ∈ Finset.range (s + 1), (τ - t i) := by
      have := interpState_w t f0 (s + 1) τ
      exact this
    rw [hf, hw, ih]
    conv_rhs => rw [Finset.sum_range_succ]

/-! ### Newton form of the Lagrange interpolant -/

theorem window_injOn (t : ℕ → R) (N : ℕ)
    (hd : ∀ i j, i < N → j < N → i ≠ j → t i ≠ t j) (a s : ℕ)
    (hws : a + s < N) :
    Set.InjOn (fun r => t (a + r)) (Finset.range (s + 1)) := by
  intro i hi j hj hij
  simp only [Finset.coe_range, Set.mem_Iio] at hi hj
  by_contra hne
  exact hd (a + i) (a + j) (by omega) (by omega) (by omega) hij

theorem Lg_eval (t f : ℕ → R) {N : ℕ}
    (hd : ∀ i j, i < N → j < N → i ≠ j → t i ≠ t j) (a s : ℕ)
    (hws : a + s < N) (r : ℕ) (hr : r ≤ s) :
    (Lg t f a s).eval (t (a + r)) = f (a + r) := by
  unfold Lg
  have hmem : r ∈ Finset.range (s + 1) := Finset.mem_range.mpr (by omega)
  exact Lagrange.eval_interpolate_at_node (fun r => f (a + r))
    (window_injOn t N hd a s hws) hmem

theorem Lg_degree_lt (t f : ℕ → R) (a s : ℕ)
    (hinj : Set.InjOn (fun r => t (a + r)) (Finset.range (s + 1))) :
    (Lg t f a s).degree < ((s + 1 : ℕ) : WithBot ℕ) := by
  have h := Lagrange.degree_interpolate_lt (fun r => f (a + r)) hinj
  rw [Finset.card_range] at h
  exact h

theorem Lg_neville (t f : ℕ → R) {N : ℕ}
    (hd : ∀ i j, i < N → j < N → i ≠ j → t i ≠ t j) (a s : ℕ)
    (h : a + s + 1 < N) :
    Polynomial.C (t (a + s + 1) - t a) * Lg t f a (s + 1)
      = (Polynomial.X - Polynomial.C (t a)) * Lg t f (a + 1) s
        + (Polynomial.C (t (a + s + 1)) - Polynomial.X) * Lg t f a s := by
  have hinj2 : Set.InjOn (fun r => t (a + r)) (Finset.range (s + 2)) :=
    window_injOn t N hd a (s + 1) h
  have hinj1 : Set.InjOn (fun r => t (a + r)) (Finset.range (s + 1)) :=
    window_injOn t N hd a s (by omega)
  have hinj1' : Set.InjOn (fun r => t (a + 1 + r)) (Finset.range (s + 1)) :=
    window_injOn t N hd (a + 1) s (by omega)
  have hne : t (a + s + 1) - t a ≠ 0 :=
    sub_ne_zero.mpr (hd (a + s + 1) a (by omega) (by omega) (by omega))
  apply Polynomial.eq_of_degrees_lt_of_eval_index_eq (Finset.range (s + 2))
    hinj2
  · rw [Finset.card_range]
    rw [Polynomial.degree_C_mul hne]
    exact Lg_degree_lt t f a (s + 1) hinj2
  · rw [Finset.card_range]
    apply lt_of_le_of_lt (Polynomial.degree_add_le _ _)
    apply max_lt
    · rw [Polynomial.degree_mul, Polynomial.degree_X_sub_C]
      have h1 := Lg_degree_lt t f (a + 1) s hinj1'
      calc (1 : WithBot ℕ) + (Lg t f (a + 1) s).degree
          < 1 + ((s + 1 : ℕ) : WithBot ℕ) := by
            apply WithBot.add_lt_add_left _ h1
            simp
        _ = ((s + 2 : ℕ) : WithBot ℕ) := by
            push_cast
            ring
    · have hxdeg : (Polynomial.C (t (a + s + 1)) - Polynomial.X : Polynomial R).degree
          = 1 := by
        rw [show Polynomial.C (t (a + s + 1)) - Polynomial.X
            = -(Polynomial.X - Polynomial.C (t (a + s + 1))) from by ring,
          Polynomial.degree_neg, Polynomial.degree_X_sub_C]
      rw [Polynomial.degree_mul, hxdeg]
      have h1 := Lg_degree_lt t f a s hinj1
      calc (1 : WithBot ℕ) + (Lg t f a s).degree
          < 1 + ((s + 1 : ℕ) : WithBot ℕ) := by
            apply WithBot.add_lt_add_left _ h1
            simp
        _ = ((s + 2 : ℕ) : WithBot ℕ) := by
            push_cast
            ring
  · intro i hi
    rw [Finset.mem_range] at hi
    simp only [Polynomial.eval_add, Polynomial.eval_mul, Polynomial.eval_sub,
      Polynomial.eval_C, Polynomial.eval_X]
    rw [Lg_eval t f hd a (s + 1) h i (by omega)]
    rcases Nat.eq_zero_or_pos i with rfl | hipos
    · rw [Lg_eval t f hd a s (by omega) 0 (by omega)]
      simp only [Nat.add_zero]
      ring
    · rcases eq_or_ne i (s + 1) with rfl | hne
      · have : a + (s + 1) = a + 1 + s := by omega
        rw [this, Lg_eval t f hd (a + 1) s (by omega) s (le_refl s)]
        rw [show a + 1 + s = a + (s + 1) from by omega]
        ring
      · have hi' : i ≤ s := by omega
        have : a + i = a + 1 + (i - 1) := by omega
        rw [this, Lg_eval t f hd (a + 1) s (by omega) (i - 1) (by omega)]
        rw [show a + 1 + (i - 1) = a + i from by omega]
        rw [Lg_eval t f hd a s (by omega) i hi']
        ring

theorem Lg_coeff_top (t f : ℕ → R) {N : ℕ}
    (hd : ∀ i j, i < N → j < N → i ≠ j → t i ≠ t j) :
    ∀ s a, a + s < N → (Lg t f a s).coeff s = ddiv t f s (a + s) := by
  intro s
  induction s with
  | zero =>
    intro a ha
    unfold Lg
    rw [show Finset.range 1 = {0} from rfl, Lagrange.interpolate_singleton]
    simp [ddiv]
  | succ s ih =>
    intro a ha
    have hnev := Lg_neville t f hd a s ha
    have hcoe := congrArg (fun p => Polynomial.coeff p (s + 1)) hnev
    simp only [Polynomial.coeff_add] at hcoe
    rw [Polynomial.coeff_C_mul] at hcoe
    have hz1 : (Lg t f (a + 1) s).coeff (s + 1) = 0 :=
      Polynomial.coeff_eq_zero_of_degree_lt (by
        have := Lg_degree_lt t f (a + 1) s
          (window_injOn t N hd (a + 1) s (by omega))
        exact_mod_cast this)
    have hz2 : (Lg t f a s).coeff (s + 1) = 0 :=
      Polynomial.coeff_eq_zero_of_degree_lt (by
        have := Lg_degree_lt t f a s (window_injOn t N hd a s (by omega))
        exact_mod_cast this)
    have h1 : ((Polynomial.X - Polynomial.C (t a)) * Lg t f (a + 1) s).coeff (s + 1)
        = (Lg t f (a + 1) s).coeff s := by
      rw [sub_mul, Polynomial.coeff_sub, Polynomial.coeff_X_mul,
        Polynomial.coeff_C_mul, hz1, mul_zero, sub_zero]
    have h2 : ((Polynomial.C (t (a + s + 1)) - Polynomial.X) * Lg t f a s).coeff (s + 1)
        = -(Lg t f a s).coeff s := by
      rw [sub_mul, Polynomial.coeff_sub, Polynomial.coeff_X_mul,
        Polynomial.coeff_C_mul, hz2, mul_zero, zero_sub]
    rw [h1, h2] at hcoe
    rw [ih (a + 1) (by omega), ih a (by omega)] at hcoe
    have hne : t (a + s + 1) - t a ≠ 0 :=
      sub_ne_zero.mpr (hd (a + s + 1) a (by omega) (by omega) (by omega))
    have hsolve : (Lg t f a (s + 1)).coeff (s + 1)
        = (ddiv t f s (a + 1 + s) - ddiv t f s (a + s)) / (t (a + s + 1) - t a) := by
      rw [eq_div_iff hne]
      linear_combination hcoe
    rw [hsolve]
    show _ = ddiv t f (s + 1) (a + (s + 1))
    rw [show ddiv t f (s + 1) (a + (s + 1))
        = (ddiv t f s (a + (s + 1)) - ddiv t f s (a + (s + 1) - 1))
            / (t (a + (s + 1)) - t (a + (s + 1) - (s + 1))) from rfl]
    rw [show a + (s + 1) - 1 = a + s from by omega,
      show a + (s + 1) - (s + 1) = a from by omega,
      show a + (s + 1) = a + s + 1 from by omega,
      show a + 1 + s = a + s + 1 from by omega]

theorem Lg_eq_NWp (t f : ℕ → R) {N : ℕ}
    (hd : ∀ i j, i < N → j < N → i ≠ j → t i ≠ t j) :
    ∀ s a, a + s < N → NWp t f a s = Lg t f a s := by
  intro s
  induction s with
  | zero =>
    intro a ha
    unfold NWp Lg
    rw [show Finset.range 1 = {0} from rfl, Lagrange.interpolate_singleton]
    simp [ddiv]
  | succ s ih =>
    intro a ha
    have hstep : Lg t f a (s + 1)
        = Lg t f a s
          + Polynomial.C (ddiv t f (s + 1) (a + (s + 1)))
            * ∏ i ∈ Finset.range (s + 1),
                (Polynomial.X - Polynomial.C (t (a + i))) := by
      have hmon : (∏ i ∈ Finset.range (s + 1),
          (Polynomial.X - Polynomial.C (t (a + i)))).Monic :=
        Polynomial.monic_prod_of_monic _ _
          (fun i _ => Polynomial.monic_X_sub_C (t (a + i)))
      have hproddeg : (∏ i ∈ Finset.range (s + 1),
          (Polynomial.X - Polynomial.C (t (a + i)))).natDegree = s + 1 := by
        rw [Polynomial.natDegree_prod _ _
          (fun i _ => Polynomial.X_sub_C_ne_zero (t (a + i)))]
        simp [Polynomial.natDegree_X_sub_C]
      set E := Lg t f a (s + 1) - Lg t f a s
        - Polynomial.C (ddiv t f (s + 1) (a + (s + 1)))
          * ∏ i ∈ Finset.range (s + 1),
              (Polynomial.X - Polynomial.C (t (a + i))) with hE
      have hEzero : E = 0 := by
        apply Polynomial.eq_zero_of_degree_lt_of_eval_index_eq_zero
          (Finset.range (s + 1)) (window_injOn t N hd a s (by omega))
        · rw [Finset.card_range]
          rw [Polynomial.degree_lt_iff_coeff_zero]
          intro m hm
          have hm' : s + 1 ≤ m := by exact_mod_cast hm
          rw [hE]
          simp only [Polynomial.coeff_sub, Polynomial.coeff_C_mul]
          rcases eq_or_lt_of_le hm' with rfl | hmgt
          · rw [Lg_coeff_top t f hd (s + 1) a ha]
            rw [Polynomial.coeff_eq_zero_of_degree_lt (by
              have := Lg_degree_lt t f a s (window_injOn t N hd a s (by omega))
              exact_mod_cast this)]
            have hco : (∏ i ∈ Finset.range (s + 1),
                (Polynomial.X - Polynomial.C (t (a + i)))).coeff (s + 1) = 1 := by
              have h2 := Polynomial.Monic.coeff_natDegree hmon
              rw [hproddeg] at h2
              exact h2
            rw [hco]
            ring
          · rw [Polynomial.coeff_eq_zero_of_degree_lt (by
                apply lt_of_lt_of_le (Lg_degree_lt t f a (s + 1)
                  (window_injOn t N hd a (s + 1) ha))
                exact_mod_cast Nat.cast_le.mpr hmgt),
              Polynomial.coeff_eq_zero_of_degree_lt (by
                apply lt_of_lt_of_le (Lg_degree_lt t f a s
                  (window_injOn t N hd a s (by omega)))
                exact_mod_cast Nat.cast_le.mpr (by omega : s + 1 ≤ m)),
              Polynomial.coeff_eq_zero_of_degree_lt (by
                rw [Polynomial.degree_eq_natDegree hmon.ne_zero, hproddeg]
                exact_mod_cast Nat.cast_lt.mpr (by omega : s + 1 < m))]
            ring
        · intro i hi
          rw [Finset.mem_range] at hi
          rw [hE]
          simp only [Polynomial.eval_sub, Polynomial.eval_mul, Polynomial.eval_C,
            Polynomial.eval_prod]
          rw [Lg_eval t f hd a (s + 1) ha i (by omega),
            Lg_eval t f hd a s (by omega) i (by omega)]
          rw [Finset.prod_eq_zero (Finset.mem_range.mpr hi) (by simp)]
          ring
      have hE0 : Lg t f a (s + 1) - Lg t f a s
          - Polynomial.C (ddiv t f (s + 1) (a + (s + 1)))
            * ∏ i ∈ Finset.range (s + 1),
                (Polynomial.X - Polynomial.C (t (a + i))) = 0 := by
        rw [← hE]
        exact hEzero
      linear_combination hE0
    rw [hstep, ← ih a (by omega)]
    unfold NWp
    rw [Finset.sum_range_succ]

theorem newton_eval_node (t f : ℕ → R) (N : ℕ)
    (hd : ∀ i j, i < N → j < N → i ≠ j → t i ≠ t j) (hN : 1 ≤ N)
    (i : ℕ) (hi : i < N) :
    ∑ σ ∈ Finset.range N, ddiv t f σ σ * ∏ i' ∈ Finset.range σ, (t i - t i')
      = f i := by
  have heq := Lg_eq_NWp t f hd (N - 1) 0 (by omega)
  have heval : (Lg t f 0 (N - 1)).eval (t i) = f i := by
    have h := Lg_eval t f hd 0 (N - 1) (by omega) i (by omega)
    simpa using h
  have hsum : (NWp t f 0 (N - 1)).eval (t i)
      = ∑ σ ∈ Finset.range N,
          ddiv t f σ σ * ∏ i' ∈ Finset.range σ, (t i - t i') := by
    unfold NWp
    rw [Polynomial.eval_finset_sum, show N - 1 + 1 = N from by omega]
    apply Finset.sum_congr rfl
    intro σ _
    rw [Polynomial.eval_mul, Polynomial.eval_C, Polynomial.eval_prod]
    simp only [Polynomial.eval_sub, Polynomial.eval_X, Polynomial.eval_C,
      Nat.zero_add]
  rw [← hsum, heq, heval]

theorem bernEval_interpPars (t f0 : ℕ → R) (N : ℕ) (hN : 1 ≤ N) (τ : R) :
    bernEval (interpPars t f0 N) τ
      = ∑ σ ∈ Finset.range N,
          ddiv t f0 σ σ * ∏ i ∈ Finset.range σ, (τ - t i) := by
  unfold bernEval interpPars
  rw [if_neg (by omega : ¬ N = 0)]
  have hl : (List.ofFn fun i : Fin N => (interpState t f0 (N - 1)).2.2 i).length
      = N := by
    simp
  rw [hl]
  have hstep : bsum (N - 1)
      (fun j => (List.ofFn fun i : Fin N =>
        (interpState t f0 (N - 1)).2.2 i).getD j 0) τ
      = bsum (N - 1) ((interpState t f0 (N - 1)).2.2) τ := by
    unfold bsum
    apply Finset.sum_congr rfl
    intro j hj
    rw [Finset.mem_range] at hj
    have hjN : j < N := by omega
    dsimp only
    rw [getD_ofFn _ hjN]
  rw [hstep, interpState_c, show N - 1 + 1 = N from by omega]

/-- Claim C1: interpolation exactness: for pairwise distinct abscissas
lying in the (nondegenerate) interval, the interpolating constructor
produces a Bernstein polynomial whose call operator reproduces every
sample value exactly (exact coefficient arithmetic models "to numerical
precision"; the statement holds for every count of abscissas, in
particular up to 20). -/
theorem interpolation_exactness (xs ys : List ℚ) (xmin xmax : ℚ)
    (hlen : ys.length = xs.length) (hx : xs.Nodup) (hb : xmin ≠ xmax)
    (hdom : ∀ x ∈ xs, min xmin xmax ≤ x ∧ x ≤ max xmin xmax)
    (i : ℕ) (hi : i < xs.length) :
    (Bernstein.interpolate xs ys xmin xmax).fn (xs.getD i 0)
      = ys.getD i 0 := by
  have hmem : xs.getD i 0 ∈ xs := by
    rw [List.getD_eq_getElem _ _ hi]
    exact List.getElem_mem _
  have hxin := hdom _ hmem
  have hfn : (Bernstein.interpolate xs ys xmin xmax).fn (xs.getD i 0)
      = (Bernstein.interpolate xs ys xmin xmax).evaluate (xs.getD i 0) := by
    unfold Bernstein.fn
    rw [show (Bernstein.interpolate xs ys xmin xmax).xmin
        = min xmin xmax from rfl,
      show (Bernstein.interpolate xs ys xmin xmax).xmax
        = max xmin xmax from rfl,
      if_neg (not_lt.mpr hxin.1), if_neg (not_lt.mpr hxin.2)]
  rw [hfn]
  unfold Bernstein.evaluate
  rw [casteljau_eq_bernEval]
  rw [show (Bernstein.interpolate xs ys xmin xmax).tOf (xs.getD i 0)
      = interpNodes xs xmin xmax i from rfl]
  rw [show (Bernstein.interpolate xs ys xmin xmax).pars
      = interpPars (interpNodes xs xmin xmax)
          (fun k => (padTake xs.length ys).getD k 0) xs.length from rfl]
  rw [bernEval_interpPars _ _ _ (by omega)]
  rw [newton_eval_node (interpNodes xs xmin xmax)
    (fun k => (padTake xs.length ys).getD k 0) xs.length
    (fun i' j' hi' hj' hne => interpNodes_inj xs xmin xmax hx hb hi' hj' hne)
    (by omega) i hi]
  show (padTake xs.length ys).getD i 0 = ys.getD i 0
  rw [show padTake xs.length ys = ys from by
    unfold padTake
    rw [List.take_of_length_le (le_of_eq hlen), hlen, Nat.sub_self]
    simp]

theorem interpolation_exactness_witness :
    ([0, 1, 4] : List ℚ).length = ([0, 1, 2] : List ℚ).length ∧
    ([0, 1, 2] : List ℚ).Nodup ∧ (0 : ℚ) ≠ 2 ∧
    (∀ x ∈ ([0, 1, 2] : List ℚ), min (0 : ℚ) 2 ≤ x ∧ x ≤ max (0 : ℚ) 2) ∧
    (1 < ([0, 1, 2] : List ℚ).length) ∧
    (Bernstein.interpolate ([0, 1, 2] : List ℚ) ([0, 1, 4] : List ℚ) 0 2).fn
        (([0, 1, 2] : List ℚ).getD 1 0)
      = ([0, 1, 4] : List ℚ).getD 1 0 := by
  refine ⟨by decide, by decide, by norm_num, by decide, by decide, ?_⟩
  exact interpolation_exactness [0, 1, 2] [0, 1, 4] 0 2 (by decide) (by decide)
    (by norm_num) (by decide) 1 (by decide)

end Ostap
